import Mathlib

/-!
Verification of the metricfs record-filtering engine against its
natural-language specification.

The Go sources are embedded shallowly:

* Go strings are `List Char` (`GoStr`); Go byte slices are `List Nat`.
* Go maps that the code iterates or marshals are association lists; the
  embedding of `encoding/json` map serialization sorts keys, as the Go
  library does.  Go map iteration order is modelled as association-list
  order (Go randomizes it; the theorems below never depend on it except
  where noted).
* JSON documents produced by `encoding/json.Unmarshal` into `any` are the
  `Json` type below.  JSON numbers become Go `float64`; this embedding
  restricts them to integer values (exactly representable in `float64`
  for |n| ≤ 2^53), which is the range the claims under study exercise.
* Functions that perform I/O take the relevant file contents / remote
  responses as explicit arguments.
-/

namespace MetricFS

/-- Go strings, embedded as lists of characters. -/
abbrev GoStr := List Char

/-- Conversion from Lean string literals to the Go-string embedding. -/
def gs (s : String) : GoStr := s.toList

/-- Boolean lexicographic order on Go strings (Go `<=` on `string`). -/
def strLe : GoStr → GoStr → Bool
  | [], _ => true
  | _ :: _, [] => false
  | a :: as, b :: bs => if a < b then true else if b < a then false else strLe as bs

/-- Go `strings.HasPrefix`. -/
def hasStrPre (s pre : GoStr) : Bool := pre.isPrefixOf s

/-- Go `strings.HasSuffix`. -/
def hasStrSuf (s suf : GoStr) : Bool := suf.reverse.isPrefixOf s.reverse

/-- Go `strings.ToLower` (ASCII case folding; the repository only compares
ASCII file suffixes). -/
def toLowerStr (s : GoStr) : GoStr := s.map Char.toLower

/-- Go `strings.TrimRight(s, cutset)`: remove trailing characters in `cutset`. -/
def trimRightChars (s : GoStr) (cutset : List Char) : GoStr :=
  ((s.reverse.dropWhile (fun c => cutset.contains c)).reverse)

/-- Go `strings.ReplaceAll(s, pat, rep)` for a non-empty pattern, written
with a step budget so that the kernel can evaluate it; each step consumes
at least one input character, so a budget of the input length is exact
and the budget-exhausted branch is unreachable. -/
def replaceAllFuel (p : Char) (ps rep : List Char) : Nat → List Char → List Char
  | _, [] => []
  | 0, s => s
  | fuel + 1, c :: rest =>
    if (p :: ps).isPrefixOf (c :: rest) then
      rep ++ replaceAllFuel p ps rep fuel ((c :: rest).drop (p :: ps).length)
    else
      c :: replaceAllFuel p ps rep fuel rest

/-- Go `strings.ReplaceAll`. An empty pattern returns the string unchanged
(the source never substitutes an empty pattern). -/
def replaceAll (s pat rep : GoStr) : GoStr :=
  match pat with
  | [] => s
  | p :: ps => replaceAllFuel p ps rep s.length s

/-- Helper for `containsSub`. -/
def containsSubAux (p : Char) (ps : List Char) : List Char → Bool
  | [] => false
  | c :: rest => (p :: ps).isPrefixOf (c :: rest) || containsSubAux p ps rest

/-- Go `strings.Contains(s, sub)` for non-empty `sub`. -/
def containsSub (s sub : GoStr) : Bool :=
  match sub with
  | [] => true
  | p :: ps => containsSubAux p ps s

/-- Go `strings.Split(s, sep)` for a single-character separator (the JSON
pointer code splits on "/"). Returns `[""]` on empty input, like Go. -/
def splitOnChar (sep : Char) (s : GoStr) : List GoStr :=
  match s with
  | [] => [[]]
  | c :: rest =>
    match splitOnChar sep rest with
    | [] => if c = sep then [[], []] else [[c]]
    | piece :: pieces =>
      if c = sep then [] :: piece :: pieces else (c :: piece) :: pieces

/-- Go `strings.Trim(s, "/")`: trim leading and trailing slashes. -/
def trimChar (s : GoStr) (c : Char) : GoStr :=
  ((s.dropWhile (· = c)).reverse.dropWhile (· = c)).reverse

/-- Go `strings.TrimSpace`. -/
def trimSpace (s : GoStr) : GoStr :=
  ((s.dropWhile Char.isWhitespace).reverse.dropWhile Char.isWhitespace).reverse

/-- `auth.CandidateKey` (object type, object id, permission). -/
structure CandidateKey where
  objectType : GoStr
  objectID : GoStr
  permission : GoStr
deriving DecidableEq

/-- The `auth.Authorizer` capability: `IsAllowed(CandidateKey) → bool`. -/
abbrev Authorizer := CandidateKey → Bool

/-- The deny-all authorizer (`auth.NewDenyAll`). -/
def denyAll : Authorizer := fun _ => false

/-- A JSON document as produced by `encoding/json.Unmarshal` into `any`:
objects are `map[string]any`, arrays `[]any`, strings `string`, booleans
`bool`, null `nil`.  Numbers become `float64`; this embedding covers the
integer-valued numbers (exactly representable for |n| ≤ 2^53). -/
inductive Json where
  | null
  | bool (b : Bool)
  | num (n : Int)
  | str (s : GoStr)
  | arr (elems : List Json)
  | obj (fields : List (GoStr × Json))

/-- Association-list lookup modelling Go map indexing `v[tok]`. -/
def assocFind (k : GoStr) : List (GoStr × Json) → Option Json
  | [] => none
  | (k', v) :: rest => if k' = k then some v else assocFind k rest

/-- Go `fmt.Sscanf(tok, "%d", &idx)`: skip leading spaces, read an optional
sign and at least one decimal digit; trailing input is ignored. -/
def goSscanfInt (s : GoStr) : Option Int :=
  let s := s.dropWhile Char.isWhitespace
  let (neg, s) :=
    match s with
    | '-' :: rest => (true, rest)
    | '+' :: rest => (false, rest)
    | _ => (false, s)
  let digits := s.takeWhile Char.isDigit
  if digits = [] then none
  else
    let n : Nat := digits.foldl (fun acc c => 10 * acc + (c.toNat - 48)) 0
    some (if neg then -(n : Int) else (n : Int))

/-- `mapper.resolveRootPointer`: RFC-6901-style pointer walk from the
document root.  Tokens unescape `~1` to `/` and then `~0` to `~`. -/
def resolveRootPointer (doc : Json) (ptr : GoStr) : Option Json :=
  if ¬ hasStrPre ptr (gs "/") = true then none
  else if ptr = gs "/" then some doc
  else
    (splitOnChar '/' (ptr.drop 1)).foldlM
      (fun cur raw =>
        let tok := replaceAll (replaceAll raw (gs "~1") (gs "/")) (gs "~0") (gs "~")
        match cur with
        | Json.obj fields => assocFind tok fields
        | Json.arr elems =>
          match goSscanfInt tok with
          | none => none
          | some idx =>
            if h : 0 ≤ idx ∧ idx.toNat < elems.length then
              some (elems.get ⟨idx.toNat, h.2⟩)
            else none
        | _ => none)
      doc

/-- `mapper.resolveItemPointer`: item-relative pointer walk (`./…`); tokens
are not unescaped, mirroring the source. -/
def resolveItemPointer (item : Json) (ptr : GoStr) : Option Json :=
  if ¬ hasStrPre ptr (gs "./") = true then none
  else if ptr = gs "./" then some item
  else
    (splitOnChar '/' (ptr.drop 2)).foldlM
      (fun cur tok =>
        match cur with
        | Json.obj fields => assocFind tok fields
        | Json.arr elems =>
          match goSscanfInt tok with
          | none => none
          | some idx =>
            if h : 0 ≤ idx ∧ idx.toNat < elems.length then
              some (elems.get ⟨idx.toNat, h.2⟩)
            else none
        | _ => none)
      item

/-- Strip trailing zero digits (used to obtain the shortest significand of
an integer-valued `float64`). -/
def stripTrailingZeros (ds : List Char) : List Char :=
  (ds.reverse.dropWhile (· = '0')).reverse

/-- Little-endian decimal digit characters of `m` (fuel-based so that the
kernel can evaluate it); empty for `m = 0`. -/
def decDigitsRev : Nat → Nat → List Char
  | 0, _ => []
  | fuel + 1, m =>
    if m = 0 then [] else Char.ofNat (48 + m % 10) :: decDigitsRev fuel (m / 10)

/-- The decimal representation of a natural number, most significant digit
first (the digit string of Go's float-to-decimal conversion for an
integer value). -/
def decRepr (m : Nat) : List Char :=
  if m = 0 then ['0'] else (decDigitsRev m m).reverse

/-- Go `strconv.FormatFloat(f, 'g', -1, 64)` restricted to integer values:
the shortest-digit form, rendered in scientific notation exactly when the
decimal exponent is at least 6 (for integers, when |n| ≥ 10^6), e.g.
`2000000 ↦ "2e+06"` and `200000 ↦ "200000"`. -/
def goFormatInt (n : Int) : GoStr :=
  let sign : GoStr := if n < 0 then ['-'] else []
  let m := n.natAbs
  let ds := decRepr m
  let dp := ds.length
  if m ≠ 0 ∧ dp - 1 ≥ 6 then
    let sig := stripTrailingZeros ds
    let mant :=
      match sig with
      | [] => []
      | d :: [] => [d]
      | d :: rest => d :: '.' :: rest
    let expDigits := decRepr (dp - 1)
    let expStr := if dp - 1 < 10 then '0' :: expDigits else expDigits
    sign ++ mant ++ ['e', '+'] ++ expStr
  else sign ++ ds

/-- Ordered insertion by key (helper of `sortPairs`). -/
def insertPair {α : Type} (x : GoStr × α) : List (GoStr × α) → List (GoStr × α)
  | [] => [x]
  | y :: ys => if strLe x.1 y.1 then x :: y :: ys else y :: insertPair x ys

/-- Sort an association list by key, modelling Go `sort.Strings` over map
keys (`mapper.sortedMap`, `mapper.sortedSliceMap`, and the sorted-key map
serialization of `encoding/json` and `fmt`). -/
def sortPairs {α : Type} (l : List (GoStr × α)) : List (GoStr × α) :=
  l.foldr insertPair []

/-- Go `fmt.Sprintf("%v", v)` on a value decoded from JSON, with a depth
budget in the composite cases so that the kernel can evaluate it: `nil`
prints `<nil>`, booleans `true`/`false`, strings verbatim, `float64` via
the shortest `'g'` form, slices as space-separated brackets, maps as
`map[k:v …]` with sorted keys. -/
def goSprintfVF : Nat → Json → GoStr
  | _, Json.null => gs "<nil>"
  | _, Json.bool true => gs "true"
  | _, Json.bool false => gs "false"
  | _, Json.num n => goFormatInt n
  | _, Json.str s => s
  | fuel, Json.arr elems =>
    match fuel with
    | 0 => []
    | fuel + 1 =>
      '[' :: List.intercalate [' '] (elems.map (goSprintfVF fuel)) ++ [']']
  | fuel, Json.obj fields =>
    match fuel with
    | 0 => []
    | fuel + 1 =>
      gs "map[" ++
        List.intercalate [' ']
          ((sortPairs (fields.map (fun kv => (kv.1, goSprintfVF fuel kv.2)))).map
            (fun kv => kv.1 ++ ':' :: kv.2)) ++ [']']

/-- Go `fmt.Sprintf("%v", v)` on a value decoded from JSON.  The depth
budget of `10^6` far exceeds the nesting `encoding/json.Unmarshal` accepts
(it rejects documents nested beyond 10^4), so the rendering is exact for
every decodable document. -/
def goSprintfV (v : Json) : GoStr := goSprintfVF 1000000 v

/-- `mapper.RuleMatch`. -/
structure RuleMatch where
  glob : GoStr
deriving DecidableEq

/-- `mapper.NormalizeSpec`. -/
structure NormalizeSpec where
  lowercase : Bool
  trimSlash : Bool
deriving DecidableEq

/-- `mapper.FromArraySpec`; the `fields` map is an association list. -/
structure FromArraySpec where
  pointer : GoStr
  fields : List (GoStr × GoStr)
  canonicalTemplate : GoStr
deriving DecidableEq

/-- `mapper.EmitSpec`. -/
structure EmitSpec where
  objectType : GoStr
  permission : GoStr
  fields : List (GoStr × GoStr)
  fromArray : Option FromArraySpec
  canonicalTemplate : GoStr
deriving DecidableEq

/-- `mapper.MapperSpec`. -/
structure MapperSpec where
  kind : GoStr
  pointer : GoStr
  canonicalTemplate : GoStr
  fields : List (GoStr × GoStr)
  fromArray : Option FromArraySpec
  emit : List EmitSpec
  normalize : NormalizeSpec
  fallbackPaths : List (GoStr × List GoStr)
deriving DecidableEq

/-- `mapper.MappingRule` (`ruleMatch` embeds the Go field `Match`, which is
a reserved word in Lean). -/
structure MappingRule where
  ruleMatch : RuleMatch
  decision : GoStr
  objectType : GoStr
  permission : GoStr
  missingResourceKey : GoStr
  mapper : MapperSpec
deriving DecidableEq

/-- `mapper.SelectedRule`. -/
structure SelectedRule where
  decision : GoStr
  missingResourceKey : GoStr
  rule : MappingRule
  ruleHash : GoStr
deriving DecidableEq

/-- `mapper.applyNormalize`: optional lowercasing, then optional trimming
of leading/trailing slashes. -/
def applyNormalize (s : GoStr) (n : NormalizeSpec) : GoStr :=
  let out := if n.lowercase then toLowerStr s else s
  if n.trimSlash then trimChar out '/' else out

/-- The primary substitution loop of `mapper.EvaluateLine`'s
`buildCandidate`: replace every `\x7bname\x7d` with the `%v` rendering of
its value (association-list order stands in for Go map iteration order). -/
def substValues (tmpl : GoStr) (values : List (GoStr × Json)) : GoStr :=
  values.foldl (fun acc kv => replaceAll acc ('\x7b' :: kv.1 ++ ['\x7d']) (goSprintfV kv.2)) tmpl

/-- The fallback loop of `buildCandidate`: for each configured fallback key
whose placeholder is still present, try its pointers in order and
substitute the first non-empty trimmed `%v` rendering. -/
def applyFallback (doc : Json) (fallback : List (GoStr × List GoStr)) (replaced : GoStr) : GoStr :=
  fallback.foldl
    (fun acc kv =>
      let needle := '\x7b' :: kv.1 ++ ['\x7d']
      if containsSub acc needle then
        let hit := kv.2.foldl
          (fun st p =>
            match st with
            | some _ => st
            | none =>
              match resolveRootPointer doc p with
              | none => none
              | some val =>
                let s := trimSpace (goSprintfV val)
                if s = [] then none else some s)
          none
        match hit with
        | some s => replaceAll acc needle s
        | none => acc
      else acc)
    replaced

/-- `buildCandidate` from `mapper.EvaluateLine`: substitute, apply
fallbacks, reject on leftover braces, normalize, strip a leading
`objectType:` prefix, drop empty ids, default the permission to `read`. -/
def buildCandidate (doc : Json) (fallback : List (GoStr × List GoStr)) (norm : NormalizeSpec)
    (objectType permission tmpl : GoStr) (values : List (GoStr × Json)) : Option CandidateKey :=
  let replaced := applyFallback doc fallback (substValues tmpl values)
  if replaced.contains '\x7b' ∨ replaced.contains '\x7d' then none
  else
    let id0 := applyNormalize replaced norm
    let pre := objectType ++ [':']
    let id1 := if hasStrPre id0 pre then id0.drop pre.length else id0
    if id1 = [] then none
    else some ⟨objectType, id1, if permission = [] then gs "read" else permission⟩

/-- Field collection for a `multi_extract` emit without `from_array`:
pointers must be `/`-rooted (else the whole evaluation errors, `none`);
an unresolved field stops collection, keeping the fields gathered so far. -/
def collectRootFields (doc : Json) : List (GoStr × GoStr) → Option (List (GoStr × Json))
  | [] => some []
  | (k, p) :: rest =>
    if ¬ hasStrPre p (gs "/") = true then none
    else
      match resolveRootPointer doc p with
      | none => some []
      | some v => (collectRootFields doc rest).map (fun l => (k, v) :: l)

/-- Field collection for a `from_array` item: pointers must start with
`./` (else the whole evaluation errors); an unresolved field stops
collection. -/
def collectItemFields (item : Json) : List (GoStr × GoStr) → Option (List (GoStr × Json))
  | [] => some []
  | (k, p) :: rest =>
    if ¬ hasStrPre p (gs "./") = true then none
    else
      match resolveItemPointer item p with
      | none => some []
      | some v => (collectItemFields item rest).map (fun l => (k, v) :: l)

/-- Candidates contributed by one `EmitSpec` of a `multi_extract` mapper;
`none` models an evaluation error aborting `EvaluateLine`. -/
def emitCandidates (doc : Json) (fallback : List (GoStr × List GoStr)) (norm : NormalizeSpec)
    (e : EmitSpec) : Option (List CandidateKey) :=
  match e.fromArray with
  | some fa =>
    match resolveRootPointer doc fa.pointer with
    | none => some []
    | some (Json.arr items) =>
      items.foldlM
        (fun acc item =>
          (collectItemFields item fa.fields).map
            (fun vals =>
              match buildCandidate doc fallback norm e.objectType e.permission
                  fa.canonicalTemplate vals with
              | some c => acc ++ [c]
              | none => acc))
        []
    | some _ => some []
  | none =>
    (collectRootFields doc e.fields).map
      (fun vals =>
        match buildCandidate doc fallback norm e.objectType e.permission
            e.canonicalTemplate vals with
        | some c => [c]
        | none => [])

/-- The final deduplication of `mapper.EvaluateLine`: drop structural
duplicates, keeping first occurrences in order. -/
def dedup (cs : List CandidateKey) : List CandidateKey :=
  cs.foldl (fun acc c => if acc.contains c then acc else acc ++ [c]) []

/-- `mapper.EvaluateLine` on an already-parsed record document. `none`
models `(nil, err)` (a rule-configuration error); `some cands` models
`(cands, nil)`. -/
def evaluateLineDoc (rule : SelectedRule) (doc : Json) : Option (List CandidateKey) :=
  let ms := rule.rule.mapper
  if ms.kind = gs "json_pointer" then
    if ¬ hasStrPre ms.pointer (gs "/") = true then none
    else
      match resolveRootPointer doc ms.pointer with
      | none => some []
      | some val =>
        match buildCandidate doc ms.fallbackPaths ms.normalize rule.rule.objectType
            rule.rule.permission ms.canonicalTemplate [(gs "value", val)] with
        | none => some []
        | some c => some (dedup [c])
  else if ms.kind = gs "multi_extract" then
    (ms.emit.foldlM
        (fun acc e => (emitCandidates doc ms.fallbackPaths ms.normalize e).map (acc ++ ·))
        []).map dedup
  else none

/-- `mapper.EvaluateLine` on raw line bytes: `json.Unmarshal` is the
external parser `parse`; a parse failure yields no candidates
(`(nil, nil)` in Go). -/
def evaluateLine (parse : List Nat → Option Json) (rule : SelectedRule)
    (line : List Nat) : Option (List CandidateKey) :=
  match parse line with
  | none => some []
  | some doc => evaluateLineDoc rule doc

/-- `indexer.LineIndex`; `stop` embeds the Go field `End` (a reserved word
in Lean).  The byte range is `[start, stop)`. -/
structure LineIndex where
  start : Nat
  stop : Nat
  decision : GoStr
  candidates : List CandidateKey
deriving DecidableEq

/-- `indexer.FileIndex` (`builtAt` abstracts the wall-clock stamp). -/
structure FileIndex where
  sourcePath : GoStr
  size : Nat
  mtimeUnix : Int
  ruleHash : GoStr
  passthrough : Bool
  builtAt : Nat
  lines : List LineIndex
deriving DecidableEq

/-- `indexer.isVisible`: a line with no candidates is invisible; decision
`all` requires every candidate allowed; any other decision (including
`any`) requires at least one. -/
def isVisible (ln : LineIndex) (az : Authorizer) : Bool :=
  if ln.candidates.length = 0 then false
  else if ln.decision = gs "all" then ln.candidates.all az
  else ln.candidates.any az

/-- The chunking performed by `bufio.Reader.ReadBytes('\n')` in
`indexer.build` and `projector.streamJSONLLines`: maximal chunks each
ending in the newline byte 10, plus a final unterminated remainder if the
input does not end in a newline. -/
def splitLines : List Nat → List (List Nat)
  | [] => []
  | b :: bs =>
    if b = 10 then [10] :: splitLines bs
    else
      match splitLines bs with
      | [] => [[b]]
      | chunk :: rest => (b :: chunk) :: rest

/-- Go `strings.TrimRight(string(chunk), "\r\n")` at the byte level. -/
def trimCRLF (bs : List Nat) : List Nat :=
  (bs.reverse.dropWhile (fun b => b = 13 || b = 10)).reverse

/-- The per-chunk loop body of `indexer.build`: assign `[start, stop)`
offsets to the chunks and evaluate each trimmed chunk; an evaluation
error stores an empty candidate list. -/
def linesOf (parse : List Nat → Option Json) (rule : SelectedRule) (off : Nat) :
    List (List Nat) → List LineIndex
  | [] => []
  | chunk :: rest =>
    { start := off
      stop := off + chunk.length
      decision := rule.decision
      candidates := (evaluateLine parse rule (trimCRLF chunk)).getD [] } ::
      linesOf parse rule (off + chunk.length) rest

/-- `indexer.build`: stream the source, split on newlines, index every
line.  `file` is the source contents (`size` in the stat result equals its
length for a consistent snapshot). -/
def build (parse : List Nat → Option Json) (sourcePath : GoStr) (file : List Nat)
    (mtimeUnix : Int) (now : Nat) (rule : SelectedRule) : FileIndex :=
  { sourcePath := sourcePath
    size := file.length
    mtimeUnix := mtimeUnix
    ruleHash := rule.ruleHash
    passthrough := false
    builtAt := now
    lines := linesOf parse rule 0 (splitLines file) }

/-- The no-mapper-file outcome of `mapper.ResolveRuleForFile` (source
lines 306–311): mode `deny` is an error, otherwise "no rule". -/
def resolveNoMapper (missingMapperMode : GoStr) : Except GoStr (Option SelectedRule) :=
  if missingMapperMode = gs "deny" then Except.error (gs "no mapper file found")
  else Except.ok none

/-- `indexer.BuildOrLoad`: propagate rule-resolution errors, return a
cache hit when the content-addressed cache holds a valid entry (`cached`),
build a passthrough index when no rule applies, else build from the
source. -/
def buildOrLoad (parse : List Nat → Option Json)
    (ruleRes : Except GoStr (Option SelectedRule)) (cached : Option FileIndex)
    (sourcePath : GoStr) (file : List Nat) (mtimeUnix : Int) (now : Nat) :
    Except GoStr FileIndex :=
  match ruleRes with
  | Except.error e => Except.error e
  | Except.ok rule =>
    match cached with
    | some fi => Except.ok fi
    | none =>
      match rule with
      | none =>
        Except.ok
          { sourcePath := sourcePath
            size := file.length
            mtimeUnix := mtimeUnix
            ruleHash := gs "passthrough"
            passthrough := true
            builtAt := now
            lines := [] }
      | some r => Except.ok (build parse sourcePath file mtimeUnix now r)

/-- Go `os.File.ReadAt(buf, off)` with `len(buf) = n`, as used by
`indexer.FilterToWriter`, which ignores `io.EOF`: available bytes, padded
with the zero bytes the fresh buffer holds past end-of-file. -/
def readAtPadded (file : List Nat) (off n : Nat) : List Nat :=
  let avail := (file.drop off).take n
  avail ++ List.replicate (n - avail.length) 0

/-- The per-line loop of `indexer.FilterToWriter`: write the byte range of
every visible line whose range is non-empty, in order. -/
def filterLines (file : List Nat) (az : Authorizer) : List LineIndex → List Nat
  | [] => []
  | ln :: rest =>
    (if isVisible ln az ∧ ln.stop > ln.start then readAtPadded file ln.start (ln.stop - ln.start)
     else []) ++ filterLines file az rest

/-- `indexer.FilterToWriter`: a passthrough index copies the source
byte-for-byte; otherwise the visible line ranges are copied in order. -/
def filterToWriter (file : List Nat) (fi : FileIndex) (az : Authorizer) : List Nat :=
  if fi.passthrough then file
  else filterLines file az fi.lines

/-- Go `strings.TrimSuffix`. -/
def trimSuffix (s suf : GoStr) : GoStr :=
  if hasStrSuf s suf then s.take (s.length - suf.length) else s

/-- `projector.VirtualJSONLName`: the virtual basename and whether the
file is a projected (compressed) variant. -/
def virtualJSONLName (name : GoStr) : GoStr × Bool :=
  let lower := toLowerStr name
  if hasStrSuf lower (gs ".jsonl") then (name, false)
  else if hasStrSuf lower (gs ".jsonl.gz") then (trimSuffix name (gs ".gz"), true)
  else if hasStrSuf lower (gs ".jsonl.tar.gz") then (trimSuffix name (gs ".tar.gz"), true)
  else (name, false)

/-- `projector.isVisibleLine`: no rule means visible; an evaluation error
or an empty candidate list means invisible; otherwise the indexer's
decision rule. -/
def isVisibleLine (parse : List Nat → Option Json) (rule : Option SelectedRule)
    (line : List Nat) (az : Authorizer) : Bool :=
  match rule with
  | none => true
  | some r =>
    match evaluateLine parse r line with
    | none => false
    | some cands =>
      if cands.length = 0 then false
      else if r.decision = gs "all" then cands.all az
      else cands.any az

/-- `projector.streamJSONLLines`: split the decoded stream on newlines and
emit each line (terminator included) whose trimmed form is visible. -/
def streamJSONLLines (parse : List Nat → Option Json) (rule : Option SelectedRule)
    (az : Authorizer) (decoded : List Nat) : List Nat :=
  ((splitLines decoded).map
    (fun line => if isVisibleLine parse rule (trimCRLF line) az then line else [])).flatten

/-- `projector.renderGzipJSONL` after gzip decoding (`decoded` is the
output of the stdlib gzip reader). -/
def renderGzipJSONL (parse : List Nat → Option Json) (rule : Option SelectedRule)
    (az : Authorizer) (decoded : List Nat) : List Nat :=
  streamJSONLLines parse rule az decoded

/-- One member of a tar archive, as surfaced by `archive/tar`. -/
structure TarEntry where
  name : GoStr
  typeflag : Nat
  content : List Nat
deriving DecidableEq

/-- `tar.TypeReg` (the byte '0'). -/
def tarTypeReg : Nat := 48

/-- `projector.renderTarGzipJSONL` after gzip decoding: stream every
regular entry whose lowercased name ends in `.jsonl`, in archive order. -/
def renderTarGzipJSONL (parse : List Nat → Option Json) (rule : Option SelectedRule)
    (az : Authorizer) (entries : List TarEntry) : List Nat :=
  (entries.map
    (fun e =>
      if e.typeflag = tarTypeReg ∧ hasStrSuf (toLowerStr e.name) (gs ".jsonl") then
        streamJSONLLines parse rule az e.content
      else [])).flatten

/-- The compressed-variant dispatch of `projector.RenderFiltered`: rule
resolution errors propagate, otherwise the decoded gzip stream is
filtered line by line. -/
def renderFilteredGz (parse : List Nat → Option Json)
    (ruleRes : Except GoStr (Option SelectedRule)) (az : Authorizer)
    (decoded : List Nat) : Except GoStr (List Nat) :=
  match ruleRes with
  | Except.error e => Except.error e
  | Except.ok rule => Except.ok (renderGzipJSONL parse rule az decoded)

/-- As `renderFilteredGz`, for `.jsonl.tar.gz` sources. -/
def renderFilteredTarGz (parse : List Nat → Option Json)
    (ruleRes : Except GoStr (Option SelectedRule)) (az : Authorizer)
    (entries : List TarEntry) : Except GoStr (List Nat) :=
  match ruleRes with
  | Except.error e => Except.error e
  | Except.ok rule => Except.ok (renderTarGzipJSONL parse rule az entries)

/-- The `.jsonl` branch of `projector.RenderFiltered`: build (or load) the
file index and filter the source through it. -/
def renderFilteredJSONL (parse : List Nat → Option Json)
    (ruleRes : Except GoStr (Option SelectedRule)) (cached : Option FileIndex)
    (path : GoStr) (raw : List Nat) (mtimeUnix : Int) (now : Nat)
    (az : Authorizer) : Except GoStr (List Nat) :=
  (buildOrLoad parse ruleRes cached path raw mtimeUnix now).map
    (fun fi => filterToWriter raw fi az)

/-- `projector.RenderFiltered`: dispatch on the lowercased source suffix —
`.jsonl` through the indexer, `.jsonl.gz` and `.jsonl.tar.gz` through the
streaming projector, anything else an error.  `ruleRes` is the outcome of
`mapper.ResolveRuleForFile` for the branch taken (the compressed branches
resolve against the virtual path); `raw` is the physical file content,
`decodedGz` the gzip-decoded stream, `tarEntries` the decoded archive. -/
def renderFiltered (parse : List Nat → Option Json) (path : GoStr)
    (ruleRes : Except GoStr (Option SelectedRule)) (cached : Option FileIndex)
    (raw : List Nat) (decodedGz : List Nat) (tarEntries : List TarEntry)
    (mtimeUnix : Int) (now : Nat) (az : Authorizer) : Except GoStr (List Nat) :=
  if hasStrSuf (toLowerStr path) (gs ".jsonl") then
    renderFilteredJSONL parse ruleRes cached path raw mtimeUnix now az
  else if hasStrSuf (toLowerStr path) (gs ".jsonl.gz") then
    renderFilteredGz parse ruleRes az decodedGz
  else if hasStrSuf (toLowerStr path) (gs ".jsonl.tar.gz") then
    renderFilteredTarGz parse ruleRes az tarEntries
  else Except.error (gs "unsupported file type for filtering")

/-- One entry returned by `os.ReadDir` in `fusefs.dirNode.resolveEntries`
(`os.ReadDir` returns entries sorted by filename). -/
structure OsDirEntry where
  name : GoStr
  isDir : Bool
deriving DecidableEq

/-- `fusefs.resolvedEntry`: a virtual directory entry — the presented
name, the physical source path, and whether it is a projected
(compressed) variant. -/
structure ResolvedEntry where
  name : GoStr
  source : GoStr
  isDir : Bool
  projected : Bool
deriving DecidableEq

/-- Go map lookup `out[k]` on the association-list model of
`map[string]resolvedEntry`. -/
def aget {α : Type} (m : List (GoStr × α)) (k : GoStr) : Option α :=
  match m with
  | [] => none
  | (k', v) :: rest => if k' = k then some v else aget rest k

/-- Go map assignment `out[k] = v`: replace the binding in place, or add
one. -/
def aupd {α : Type} (m : List (GoStr × α)) (k : GoStr) (v : α) : List (GoStr × α) :=
  match m with
  | [] => [(k, v)]
  | (k', v') :: rest => if k' = k then (k, v) :: rest else (k', v') :: aupd rest k v

/-- `filepath.Join(dir, name)` for a clean directory path and a plain
entry name. -/
def joinPath (dir name : GoStr) : GoStr := dir ++ '/' :: name

/-- The skip test of `fusefs.dirNode.resolveEntries`:
`existing, ok := out[vname]; ok && !existing.projected`. -/
def skipExisting (o : Option ResolvedEntry) : Bool :=
  match o with
  | some existing => !existing.projected
  | none => false

/-- The loop of `fusefs.dirNode.resolveEntries`: directories keep their
names; files are keyed by their virtual name, and a colliding entry is
skipped exactly when the binding already present is non-projected (so the
non-compressed physical variant wins). -/
def resolveEntries (dir : GoStr) :
    List OsDirEntry → List (GoStr × ResolvedEntry) → List (GoStr × ResolvedEntry)
  | [], out => out
  | e :: rest, out =>
    if e.isDir then
      resolveEntries dir rest
        (aupd out e.name ⟨e.name, joinPath dir e.name, true, false⟩)
    else if skipExisting (aget out (virtualJSONLName e.name).1) then
      resolveEntries dir rest out
    else
      resolveEntries dir rest
        (aupd out (virtualJSONLName e.name).1
          ⟨(virtualJSONLName e.name).1, joinPath dir e.name, false,
            (virtualJSONLName e.name).2⟩)

/-- `fusefs.dirNode.Readdir`: list the resolved entries under their
virtual names, sorted by key as `sort.Strings` does. -/
def readdirVirtual (dir : GoStr) (entries : List OsDirEntry) : List (GoStr × Bool) :=
  (sortPairs (resolveEntries dir entries [])).map (fun kv => (kv.2.name, kv.2.isDir))

/-- `fusefs.dirNode.fileData`: a non-projected entry whose source does not
end in `.jsonl` is read verbatim (`os.ReadFile`); every other entry is
materialized through `projector.RenderFiltered`. -/
def fileData (parse : List Nat → Option Json) (ent : ResolvedEntry)
    (ruleRes : Except GoStr (Option SelectedRule)) (cached : Option FileIndex)
    (raw : List Nat) (decodedGz : List Nat) (tarEntries : List TarEntry)
    (mtimeUnix : Int) (now : Nat) (az : Authorizer) : Except GoStr (List Nat) :=
  if ent.projected = false ∧ ¬ hasStrSuf (toLowerStr ent.source) (gs ".jsonl") = true then
    Except.ok raw
  else
    renderFiltered parse ent.source ruleRes cached raw decodedGz tarEntries
      mtimeUnix now az

/-- The outcome of one HTTP round trip of
`auth.SpiceDBAuthorizer.checkRemote`: a transport error, or a response
with a status code and (when the body decodes) the `permissionship`
field. -/
inductive SpiceResponse where
  | transportError
  | response (status : Nat) (decodedPermissionship : Option GoStr)
deriving DecidableEq

/-- `auth.SpiceDBAuthorizer.checkRemote`: transport failure, non-200
status and an undecodable body are errors; otherwise the answer is
whether `permissionship` equals `PERMISSIONSHIP_HAS_PERMISSION`. -/
def checkRemote (remote : CandidateKey → SpiceResponse) (c : CandidateKey) :
    Except Unit Bool :=
  match remote c with
  | SpiceResponse.transportError => Except.error ()
  | SpiceResponse.response status decoded =>
    if status ≠ 200 then Except.error ()
    else
      match decoded with
      | none => Except.error ()
      | some p => Except.ok (p = gs "PERMISSIONSHIP_HAS_PERMISSION")

/-- The permission cache of `auth.SpiceDBAuthorizer`, keyed by the full
candidate key. -/
abbrev SpiceCache := List (CandidateKey × Bool)

/-- Cache lookup (`a.cache[c]`). -/
def cacheFind (cache : SpiceCache) (c : CandidateKey) : Option Bool :=
  match cache with
  | [] => none
  | (k, v) :: rest => if k = c then some v else cacheFind rest c

/-- `auth.SpiceDBAuthorizer.IsAllowed`: default the permission to `read`,
reject empty object type/id, answer from the cache, otherwise perform the
remote check; a failed remote check answers `false` and leaves the cache
unchanged, a successful one is stored. -/
def isAllowedSpice (remote : CandidateKey → SpiceResponse) (cache : SpiceCache)
    (c : CandidateKey) : Bool × SpiceCache :=
  let c := if c.permission = [] then { c with permission := gs "read" } else c
  if c.objectType = [] ∨ c.objectID = [] then (false, cache)
  else
    match cacheFind cache c with
    | some allowed => (allowed, cache)
    | none =>
      match checkRemote remote c with
      | Except.error _ => (false, cache)
      | Except.ok allowed => (allowed, (c, allowed) :: cache)

/-- A JSON value as produced by `encoding/json.Marshal` in
`mapper.canonicalRules`: struct fields keep declaration order, maps are
serialized with sorted keys, nil pointers become `null`.  The SHA-1 rule
hash is the digest of the deterministic serialization of this value. -/
inductive J where
  | null
  | jbool (b : Bool)
  | str (s : GoStr)
  | arr (elems : List J)
  | obj (fields : List (GoStr × J))

/-- Marshal a `map[string]string` (sorted keys, like `encoding/json`). -/
def goMapJ (m : List (GoStr × GoStr)) : J :=
  J.obj ((sortPairs m).map (fun kv => (kv.1, J.str kv.2)))

/-- Marshal a `map[string][]string` (sorted keys). -/
def goSliceMapJ (m : List (GoStr × List GoStr)) : J :=
  J.obj ((sortPairs m).map (fun kv => (kv.1, J.arr (kv.2.map J.str))))

/-- Marshal `mapper.FromArraySpec`. -/
def faJ (fa : FromArraySpec) : J :=
  J.obj
    [(gs "Pointer", J.str fa.pointer),
     (gs "Fields", goMapJ fa.fields),
     (gs "CanonicalTemplate", J.str fa.canonicalTemplate)]

/-- Marshal `mapper.EmitSpec`. -/
def emitJ (e : EmitSpec) : J :=
  J.obj
    [(gs "ObjectType", J.str e.objectType),
     (gs "Permission", J.str e.permission),
     (gs "Fields", goMapJ e.fields),
     (gs "FromArray", (e.fromArray.map faJ).getD J.null),
     (gs "CanonicalTemplate", J.str e.canonicalTemplate)]

/-- Marshal `mapper.NormalizeSpec`. -/
def normJ (n : NormalizeSpec) : J :=
  J.obj
    [(gs "Lowercase", J.jbool n.lowercase),
     (gs "TrimSlash", J.jbool n.trimSlash)]

/-- Marshal `mapper.MapperSpec`. -/
def mapperJ (m : MapperSpec) : J :=
  J.obj
    [(gs "Kind", J.str m.kind),
     (gs "Pointer", J.str m.pointer),
     (gs "CanonicalTemplate", J.str m.canonicalTemplate),
     (gs "Fields", goMapJ m.fields),
     (gs "FromArray", (m.fromArray.map faJ).getD J.null),
     (gs "Emit", J.arr (m.emit.map emitJ)),
     (gs "Normalize", normJ m.normalize),
     (gs "FallbackPaths", goSliceMapJ m.fallbackPaths)]

/-- Marshal `mapper.MappingRule`. -/
def ruleJ (r : MappingRule) : J :=
  J.obj
    [(gs "Match", J.obj [(gs "Glob", J.str r.ruleMatch.glob)]),
     (gs "Decision", J.str r.decision),
     (gs "ObjectType", J.str r.objectType),
     (gs "Permission", J.str r.permission),
     (gs "MissingResourceKey", J.str r.missingResourceKey),
     (gs "Mapper", mapperJ r.mapper)]

/-- `mapper.sortedMap` / `mapper.sortedSliceMap` applied by
`mapper.canonicalRules`: copy each rule, sorting the mapper's `Fields`
and `FallbackPaths` maps. -/
def canonicalRulesCopy (rules : List MappingRule) : List MappingRule :=
  rules.map
    (fun r =>
      { r with
        mapper :=
          { r.mapper with
            fields := sortPairs r.mapper.fields
            fallbackPaths := sortPairs r.mapper.fallbackPaths } })

/-- The JSON value whose deterministic serialization `mapper.loadRules`
digests with SHA-1 to obtain `rule_hash`: the canonicalized rule sequence
of `mapper.canonicalRules`.  It depends only on the rules, never on the
bytes of any indexed file. -/
def canonicalRulesValue (rules : List MappingRule) : J :=
  J.arr ((canonicalRulesCopy rules).map ruleJ)

/-- A parsed mapping file together with its (acyclic) `extends` chain, as
walked by `mapper.loadRules`. -/
inductive MFile where
  | node (rules : List MappingRule) (parent : Option MFile)

/-- The rule sequence `mapper.loadRules` accumulates: local rules first,
then (when inheriting) the parent chain's rules. -/
def collectRules (inherit : Bool) : MFile → List MappingRule
  | MFile.node rules parent =>
    rules ++
      (if inherit then
        match parent with
        | some p => collectRules inherit p
        | none => []
      else [])

/-- The rule-hash input computed while loading a mapping file: the
canonical value over all contributing rules, inherited ones included. -/
def loadRulesHashInput (inherit : Bool) (f : MFile) : J :=
  canonicalRulesValue (collectRules inherit f)

/-- Canonical form of a `from_array` spec: its field map sorted. -/
def normFA (fa : FromArraySpec) : FromArraySpec :=
  { fa with fields := sortPairs fa.fields }

/-- Canonical form of an emit spec: every field map sorted. -/
def normEmit (e : EmitSpec) : EmitSpec :=
  { e with fields := sortPairs e.fields, fromArray := e.fromArray.map normFA }

/-- Sort every string-keyed map in a mapper (the canonical form that
determines the rule hash: `encoding/json` sorts the emit and from-array
field maps as well). -/
def normMapper (m : MapperSpec) : MapperSpec :=
  { m with
    fields := sortPairs m.fields
    fallbackPaths := sortPairs m.fallbackPaths
    fromArray := m.fromArray.map normFA
    emit := m.emit.map normEmit }

/-- Canonical form of one rule: every map in its mapper sorted. -/
def normRule (r : MappingRule) : MappingRule :=
  { r with mapper := normMapper r.mapper }

/-- The canonical form of a rule sequence: every map sorted by key. -/
def normalizeRules (rules : List MappingRule) : List MappingRule :=
  rules.map normRule

/-- Reordering relation on association lists: a permutation with
duplicate-free keys (Go maps cannot hold duplicate keys, so reordering
keys in the mapping file yields exactly such a permutation). -/
def PairsPerm {α : Type} (l₁ l₂ : List (GoStr × α)) : Prop :=
  l₁.Perm l₂ ∧ (l₁.map Prod.fst).Nodup

/-- From-array specs that differ only by reordering of their field map. -/
def FARel (fa₁ fa₂ : FromArraySpec) : Prop :=
  fa₁.pointer = fa₂.pointer ∧ fa₁.canonicalTemplate = fa₂.canonicalTemplate ∧
  PairsPerm fa₁.fields fa₂.fields

/-- Emit specs that differ only by reordering of keys inside their maps. -/
def EmitRel (e₁ e₂ : EmitSpec) : Prop :=
  e₁.objectType = e₂.objectType ∧ e₁.permission = e₂.permission ∧
  e₁.canonicalTemplate = e₂.canonicalTemplate ∧
  PairsPerm e₁.fields e₂.fields ∧
  Option.Rel FARel e₁.fromArray e₂.fromArray

/-- Rules that differ only by reordering of keys inside their string-keyed
maps (fields tables, fallback tables). -/
def MapperPermEq (m₁ m₂ : MapperSpec) : Prop :=
  m₁.kind = m₂.kind ∧ m₁.pointer = m₂.pointer ∧
  m₁.canonicalTemplate = m₂.canonicalTemplate ∧
  m₁.normalize = m₂.normalize ∧
  PairsPerm m₁.fields m₂.fields ∧
  PairsPerm m₁.fallbackPaths m₂.fallbackPaths ∧
  Option.Rel FARel m₁.fromArray m₂.fromArray ∧
  List.Forall₂ EmitRel m₁.emit m₂.emit

/-- Rule sequences that differ only by reordering of keys inside maps. -/
def RulesPermEq (rules₁ rules₂ : List MappingRule) : Prop :=
  List.Forall₂
    (fun r₁ r₂ : MappingRule =>
      r₁.ruleMatch = r₂.ruleMatch ∧ r₁.decision = r₂.decision ∧
      r₁.objectType = r₂.objectType ∧ r₁.permission = r₂.permission ∧
      r₁.missingResourceKey = r₂.missingResourceKey ∧
      MapperPermEq r₁.mapper r₂.mapper)
    rules₁ rules₂

/-! ### Properties of the newline chunking -/

theorem splitLines_eq_nil_iff {bs : List Nat} : splitLines bs = [] ↔ bs = [] := by
  constructor
  · intro h
    cases bs with
    | nil => rfl
    | cons b rest =>
      simp only [splitLines] at h
      split at h
      · exact absurd h (by simp)
      · split at h <;> simp_all
  · intro h
    subst h
    rfl

theorem flatten_splitLines (bs : List Nat) : (splitLines bs).flatten = bs := by
  induction bs with
  | nil => rfl
  | cons b rest ih =>
    simp only [splitLines]
    split
    · subst ‹b = 10›
      simp [ih]
    · cases h : splitLines rest with
      | nil =>
        have : rest = [] := splitLines_eq_nil_iff.mp h
        subst this
        simp
      | cons chunk rest' =>
        rw [h] at ih
        simpa using ih

theorem mem_splitLines_ne_nil {bs : List Nat} {c : List Nat}
    (hc : c ∈ splitLines bs) : c ≠ [] := by
  induction bs generalizing c with
  | nil => simp [splitLines] at hc
  | cons b rest ih =>
    simp only [splitLines] at hc
    split at hc
    · rcases List.mem_cons.mp hc with h | h
      · subst h; simp
      · exact ih h
    · cases h : splitLines rest with
      | nil =>
        rw [h] at hc
        rcases List.mem_cons.mp hc with h' | h' <;> simp_all
      | cons chunk rest' =>
        rw [h] at hc
        rcases List.mem_cons.mp hc with h' | h'
        · subst h'; simp
        · exact ih (h ▸ List.mem_cons_of_mem _ h')

/-! ### Properties of the offset assignment of `indexer.build` -/

theorem linesOf_head_start (parse : List Nat → Option Json) (rule : SelectedRule)
    (off : Nat) {chunks : List (List Nat)} (h : chunks ≠ []) :
    ((linesOf parse rule off chunks).head?.map LineIndex.start) = some off := by
  cases chunks with
  | nil => exact absurd rfl h
  | cons c rest => rfl

theorem linesOf_chain (parse : List Nat → Option Json) (rule : SelectedRule)
    (off : Nat) (chunks : List (List Nat)) :
    List.Chain' (fun a b => a.stop = b.start) (linesOf parse rule off chunks) := by
  induction chunks generalizing off with
  | nil => simp [linesOf]
  | cons c rest ih =>
    rw [linesOf]
    apply List.chain'_cons'.mpr
    refine ⟨?_, ih _⟩
    intro y hy
    cases rest with
    | nil => simp [linesOf] at hy
    | cons c' rest' =>
      simp only [linesOf, List.head?_cons, Option.mem_def, Option.some.injEq] at hy
      subst hy
      rfl

theorem linesOf_getLast_stop (parse : List Nat → Option Json) (rule : SelectedRule)
    (off : Nat) (chunks : List (List Nat)) (h : chunks ≠ []) :
    ((linesOf parse rule off chunks).getLast?.map LineIndex.stop) =
      some (off + (chunks.map List.length).sum) := by
  induction chunks generalizing off with
  | nil => exact absurd rfl h
  | cons c rest ih =>
    cases rest with
    | nil => simp [linesOf]
    | cons c' rest' =>
      have h1 : (linesOf parse rule off (c :: c' :: rest')).getLast? =
          (linesOf parse rule (off + c.length) (c' :: rest')).getLast? := by
        simp only [linesOf]
        rw [List.getLast?_cons_cons]
      rw [h1, ih (off + c.length) (by simp)]
      simp only [List.map_cons, List.sum_cons, Option.some.injEq]
      omega

theorem linesOf_mem_lt (parse : List Nat → Option Json) (rule : SelectedRule)
    (off : Nat) (chunks : List (List Nat)) (hne : ∀ c ∈ chunks, c ≠ []) :
    ∀ ln ∈ linesOf parse rule off chunks, ln.start < ln.stop := by
  induction chunks generalizing off with
  | nil => simp [linesOf]
  | cons c rest ih =>
    intro ln hln
    rw [linesOf] at hln
    rcases List.mem_cons.mp hln with h | h
    · subst h
      have : c ≠ [] := hne c (List.mem_cons_self _ _)
      have : 0 < c.length := List.length_pos.mpr this
      simpa using this
    · exact ih _ (fun c' hc' => hne c' (List.mem_cons_of_mem _ hc')) ln h

/-- C5: for every `FileIndex` built over a non-empty source of size N, the
line ranges start at 0, are adjacent (`lines[i].end = lines[i+1].start`),
end at N, and each is non-empty: the ranges partition `[0, N)` with no
gaps and no overlap. -/
theorem buildIndex_partition (parse : List Nat → Option Json) (sp : GoStr)
    (file : List Nat) (mtime : Int) (now : Nat) (rule : SelectedRule)
    (h : file ≠ []) :
    (build parse sp file mtime now rule).size = file.length ∧
    (build parse sp file mtime now rule).lines ≠ [] ∧
    ((build parse sp file mtime now rule).lines.head?.map LineIndex.start) = some 0 ∧
    List.Chain' (fun a b => a.stop = b.start) (build parse sp file mtime now rule).lines ∧
    ((build parse sp file mtime now rule).lines.getLast?.map LineIndex.stop) =
      some (build parse sp file mtime now rule).size ∧
    ∀ ln ∈ (build parse sp file mtime now rule).lines, ln.start < ln.stop := by
  have hchunks : splitLines file ≠ [] := fun hc => h (splitLines_eq_nil_iff.mp hc)
  have hsum : ((splitLines file).map List.length).sum = file.length := by
    rw [← List.length_flatten, flatten_splitLines]
  refine ⟨rfl, ?_, ?_, ?_, ?_, ?_⟩
  · show linesOf parse rule 0 (splitLines file) ≠ []
    cases hc : splitLines file with
    | nil => exact absurd hc hchunks
    | cons c rest => simp [linesOf]
  · simpa using linesOf_head_start parse rule 0 hchunks
  · exact linesOf_chain parse rule 0 (splitLines file)
  · show ((linesOf parse rule 0 (splitLines file)).getLast?.map LineIndex.stop) =
      some (build parse sp file mtime now rule).size
    rw [linesOf_getLast_stop parse rule 0 (splitLines file) hchunks]
    simp [build, hsum]
  · exact linesOf_mem_lt parse rule 0 (splitLines file)
      (fun c hc => mem_splitLines_ne_nil hc)

/-- Witness for C5 at the two-record file `"x\ny"`. -/
theorem buildIndex_partition_witness :
    ([120, 10, 121] : List Nat) ≠ [] ∧
    ((build (fun _ => none) (gs "f") [120, 10, 121] 0 0
        ⟨gs "any", gs "deny",
         ⟨⟨[]⟩, gs "any", [], [], gs "deny",
          ⟨gs "json_pointer", gs "/a", [], [], none, [], ⟨false, false⟩, []⟩⟩,
         gs "h"⟩).lines.head?.map LineIndex.start) = some 0 := by
  refine ⟨by decide, ?_⟩
  exact (buildIndex_partition (fun _ => none) (gs "f") [120, 10, 121] 0 0
    ⟨gs "any", gs "deny",
     ⟨⟨[]⟩, gs "any", [], [], gs "deny",
      ⟨gs "json_pointer", gs "/a", [], [], none, [], ⟨false, false⟩, []⟩⟩,
     gs "h"⟩ (by decide)).2.2.1

/-- C2: for a non-passthrough `FileIndex` whose line ranges lie inside the
source, `FilterToWriter` writes exactly the concatenation, in line order,
of the source byte ranges `[start, stop)` of the visible lines, and
nothing else. -/
theorem filterToWriter_concat (file : List Nat) (sp : GoStr) (sz : Nat) (mt : Int)
    (rh : GoStr) (bat : Nat) (lines : List LineIndex) (az : Authorizer)
    (hb : ∀ ln ∈ lines, ln.stop ≤ file.length) :
    filterToWriter file ⟨sp, sz, mt, rh, false, bat, lines⟩ az =
      ((lines.filter (fun ln => isVisible ln az)).map
        (fun ln => (file.drop ln.start).take (ln.stop - ln.start))).flatten := by
  show filterLines file az lines = _
  induction lines with
  | nil => rfl
  | cons ln rest ih =>
    have hrest : ∀ l ∈ rest, l.stop ≤ file.length :=
      fun l hl => hb l (List.mem_cons_of_mem _ hl)
    have hln : ln.stop ≤ file.length := hb ln (List.mem_cons_self _ _)
    rw [filterLines, ih hrest]
    cases hv : isVisible ln az with
    | false =>
      have hfil : (ln :: rest).filter (fun l => isVisible l az) =
          rest.filter (fun l => isVisible l az) := by
        simp [List.filter_cons, hv]
      rw [hfil]
      simp [hv]
    | true =>
      have hfil : (ln :: rest).filter (fun l => isVisible l az) =
          ln :: rest.filter (fun l => isVisible l az) := by
        simp [List.filter_cons, hv]
      rw [hfil]
      simp only [List.map_cons, List.flatten_cons]
      by_cases hgt : ln.stop > ln.start
      · have havail : ((file.drop ln.start).take (ln.stop - ln.start)).length =
            ln.stop - ln.start := by
          simp only [List.length_take, List.length_drop]
          omega
        simp only [hv, true_and, if_pos hgt]
        congr 1
        simp [readAtPadded, havail]
      · have h0 : ln.stop - ln.start = 0 := by omega
        simp only [hv, true_and, if_neg hgt]
        simp [h0]

/-- Witness for C2 on a five-byte file with one visible and one invisible
line. -/
theorem filterToWriter_concat_witness :
    (∀ ln ∈ [(⟨0, 3, gs "any", [⟨gs "t", gs "a", gs "read"⟩]⟩ : LineIndex),
             ⟨3, 5, gs "any", [⟨gs "t", gs "b", gs "read"⟩]⟩], ln.stop ≤ ([7, 8, 10, 9, 10] : List Nat).length) ∧
    filterToWriter [7, 8, 10, 9, 10]
      ⟨gs "f", 5, 0, gs "h", false, 0,
        [⟨0, 3, gs "any", [⟨gs "t", gs "a", gs "read"⟩]⟩,
         ⟨3, 5, gs "any", [⟨gs "t", gs "b", gs "read"⟩]⟩]⟩
      (fun c => c.objectID = gs "a") = [7, 8, 10] := by
  refine ⟨by decide, ?_⟩
  rw [filterToWriter_concat [7, 8, 10, 9, 10] (gs "f") 5 0 (gs "h") 0
    [⟨0, 3, gs "any", [⟨gs "t", gs "a", gs "read"⟩]⟩,
     ⟨3, 5, gs "any", [⟨gs "t", gs "b", gs "read"⟩]⟩]
    (fun c => c.objectID = gs "a") (by decide)]
  decide

/-- C4: with `missing-mapper=passthrough`, rule resolution reports "no
rule" for an unmapped file; `BuildOrLoad` (on a cache miss) then returns
an index with `passthrough = true` and no lines, and `FilterToWriter`
emits the source byte-for-byte for every authorizer, the deny-all
authorizer included. -/
theorem buildOrLoad_passthrough (parse : List Nat → Option Json) (sp : GoStr)
    (file : List Nat) (mtime : Int) (now : Nat) (az : Authorizer) :
    resolveNoMapper (gs "passthrough") = Except.ok none ∧
    ∃ fi : FileIndex,
      buildOrLoad parse (resolveNoMapper (gs "passthrough")) none sp file mtime now =
        Except.ok fi ∧
      fi.passthrough = true ∧ fi.lines = [] ∧
      filterToWriter file fi az = file ∧
      filterToWriter file fi denyAll = file := by
  refine ⟨by rfl, ?_⟩
  refine ⟨_, rfl, rfl, rfl, rfl, rfl⟩

/-- C10: when rule resolution returns no rule (passthrough mode), the
projector's streamed rendering of a compressed source emits every decoded
record line in order, for every authorizer: the output is the decoded
record content, and for a tar archive the concatenated contents of its
regular `.jsonl` entries. -/
theorem renderFiltered_noRule (parse : List Nat → Option Json) (az : Authorizer)
    (decoded : List Nat) (entries : List TarEntry) :
    resolveNoMapper (gs "passthrough") = Except.ok none ∧
    renderFilteredGz parse (Except.ok none) az decoded = Except.ok decoded ∧
    renderFilteredTarGz parse (Except.ok none) az entries =
      Except.ok ((entries.map
        (fun e =>
          if e.typeflag = tarTypeReg ∧ hasStrSuf (toLowerStr e.name) (gs ".jsonl") then
            e.content
          else [])).flatten) := by
  have hstream : ∀ bs : List Nat, streamJSONLLines parse none az bs = bs := by
    intro bs
    show ((splitLines bs).map
      (fun line => if isVisibleLine parse none (trimCRLF line) az then line else [])).flatten = bs
    have : ∀ line : List Nat,
        (if isVisibleLine parse none (trimCRLF line) az then line else []) = line := by
      intro line
      rfl
    rw [List.map_congr_left (fun line _ => this line)]
    rw [List.map_id', flatten_splitLines]
  refine ⟨by rfl, ?_, ?_⟩
  · show Except.ok (renderGzipJSONL parse none az decoded) = Except.ok decoded
    rw [show renderGzipJSONL parse none az decoded = streamJSONLLines parse none az decoded
      from rfl]
    rw [hstream]
  · show Except.ok (renderTarGzipJSONL parse none az entries) = Except.ok _
    congr 1
    show (entries.map _).flatten = _
    congr 1
    apply List.map_congr_left
    intro e _
    by_cases h : e.typeflag = tarTypeReg ∧ hasStrSuf (toLowerStr e.name) (gs ".jsonl")
    · simp only [if_pos h]
      exact hstream e.content
    · simp only [if_neg h]

/-- C1: a line with no candidates is never visible, whatever the decision;
under decision `any` a line is visible iff some candidate is allowed;
under `all` iff every candidate is allowed; and the projector's
`isVisibleLine` applies exactly the indexer's visibility rule to the
candidates evaluated for the streamed record (an evaluation error giving
an empty candidate list). -/
theorem visibility_rule (ln : LineIndex) (az : Authorizer)
    (parse : List Nat → Option Json) (r : SelectedRule) (line : List Nat) :
    (ln.candidates = [] → isVisible ln az = false) ∧
    (ln.decision = gs "any" →
      (isVisible ln az = true ↔ ln.candidates ≠ [] ∧ ∃ c ∈ ln.candidates, az c = true)) ∧
    (ln.decision = gs "all" →
      (isVisible ln az = true ↔ ln.candidates ≠ [] ∧ ∀ c ∈ ln.candidates, az c = true)) ∧
    isVisibleLine parse (some r) line az =
      isVisible
        { start := 0, stop := 0, decision := r.decision,
          candidates := (evaluateLine parse r line).getD [] } az := by
  refine ⟨?_, ?_, ?_, ?_⟩
  · intro h
    simp [isVisible, h]
  · intro hdec
    have hne : ¬ ln.decision = gs "all" := by
      rw [hdec]
      decide
    rw [isVisible, if_neg hne]
    by_cases h0 : ln.candidates.length = 0
    · rw [if_pos h0]
      simp [List.length_eq_zero.mp h0]
    · rw [if_neg h0]
      rw [List.any_eq_true]
      have : ln.candidates ≠ [] := fun h => h0 (by simp [h])
      simp [this]
  · intro hdec
    rw [isVisible, hdec, if_pos rfl]
    by_cases h0 : ln.candidates.length = 0
    · rw [if_pos h0]
      simp [List.length_eq_zero.mp h0]
    · rw [if_neg h0]
      rw [List.all_eq_true]
      have : ln.candidates ≠ [] := fun h => h0 (by simp [h])
      simp [this]
  · rw [isVisibleLine]
    cases hev : evaluateLine parse r line with
    | none => simp [isVisible, hev]
    | some cands => simp only [hev, Option.getD_some, isVisible]

/-- Witness for C1: a one-candidate `any` line is visible exactly when its
candidate is allowed. -/
theorem visibility_rule_witness :
    isVisible ⟨0, 2, gs "any", [⟨gs "t", gs "a", gs "read"⟩]⟩
      (fun c => c.objectID = gs "a") = true := by
  have h := (visibility_rule ⟨0, 2, gs "any", [⟨gs "t", gs "a", gs "read"⟩]⟩
    (fun c => c.objectID = gs "a") (fun _ => none)
    ⟨gs "any", gs "deny",
     ⟨⟨[]⟩, gs "any", [], [], gs "deny",
      ⟨gs "json_pointer", gs "/a", [], [], none, [], ⟨false, false⟩, []⟩⟩,
     gs "h"⟩ []).2.1 rfl
  exact h.mpr ⟨by decide, ⟨gs "t", gs "a", gs "read"⟩, by decide, by decide⟩

/-- C7: when the remote permission check fails at the transport or
protocol level, `SpiceDBAuthorizer.IsAllowed` answers `false` for that
call and stores nothing in the cache, so a later call with the same
candidate key performs the remote check again (a then-succeeding remote
determines the answer) instead of returning a persisted negative. -/
theorem spicedb_failClosed_noPoison (remote remote₂ : CandidateKey → SpiceResponse)
    (cache : SpiceCache) (c : CandidateKey) (b : Bool)
    (hkey : (if c.permission = [] then { c with permission := gs "read" } else c).objectType ≠ [] ∧
      (if c.permission = [] then { c with permission := gs "read" } else c).objectID ≠ [])
    (hmiss : cacheFind cache (if c.permission = [] then { c with permission := gs "read" } else c) = none)
    (hfail : checkRemote remote (if c.permission = [] then { c with permission := gs "read" } else c) =
      Except.error ())
    (hok : checkRemote remote₂ (if c.permission = [] then { c with permission := gs "read" } else c) =
      Except.ok b) :
    isAllowedSpice remote cache c = (false, cache) ∧
    isAllowedSpice remote₂ cache c =
      (b, ((if c.permission = [] then { c with permission := gs "read" } else c), b) :: cache) := by
  constructor
  · rw [isAllowedSpice]
    rw [if_neg (by tauto), hmiss, hfail]
  · rw [isAllowedSpice]
    rw [if_neg (by tauto), hmiss, hok]

/-- Witness for C7: a transport error denies without touching the cache;
a later successful check is answered remotely. -/
theorem spicedb_failClosed_noPoison_witness :
    isAllowedSpice (fun _ => SpiceResponse.transportError) []
      ⟨gs "t", gs "a", gs "read"⟩ = (false, []) ∧
    isAllowedSpice
      (fun _ => SpiceResponse.response 200 (some (gs "PERMISSIONSHIP_HAS_PERMISSION"))) []
      ⟨gs "t", gs "a", gs "read"⟩ =
      (true, [(⟨gs "t", gs "a", gs "read"⟩, true)]) := by
  have h := spicedb_failClosed_noPoison (fun _ => SpiceResponse.transportError)
    (fun _ => SpiceResponse.response 200 (some (gs "PERMISSIONSHIP_HAS_PERMISSION")))
    [] ⟨gs "t", gs "a", gs "read"⟩ true
    (by constructor <;> decide) (by decide) (by rfl) (by rfl)
  refine ⟨h.1, ?_⟩
  rw [h.2]
  decide

/-! ### The string order and key sorting underlying the canonical form -/

theorem strLe_total (a b : GoStr) : strLe a b = true ∨ strLe b a = true := by
  induction a generalizing b with
  | nil => left; rfl
  | cons x xs ih =>
    cases b with
    | nil => right; rfl
    | cons y ys =>
      by_cases hxy : x < y
      · left; simp [strLe, hxy]
      · by_cases hyx : y < x
        · right; simp [strLe, hyx]
        · have hxyeq : x = y := le_antisymm (not_lt.mp hyx) (not_lt.mp hxy)
          subst hxyeq
          rcases ih ys with h | h
          · left; simp [strLe, lt_irrefl, h]
          · right; simp [strLe, lt_irrefl, h]

theorem strLe_trans (a b c : GoStr) (hab : strLe a b = true) (hbc : strLe b c = true) :
    strLe a c = true := by
  induction a generalizing b c with
  | nil => rfl
  | cons x xs ih =>
    cases b with
    | nil => simp [strLe] at hab
    | cons y ys =>
      cases c with
      | nil => simp [strLe] at hbc
      | cons z zs =>
        by_cases hxy : x < y
        · by_cases hyz : y < z
          · simp [strLe, lt_trans hxy hyz]
          · by_cases hzy : z < y
            · simp [strLe, hyz, hzy] at hbc
            · have : y = z := le_antisymm (not_lt.mp hzy) (not_lt.mp hyz)
              subst this
              simp [strLe, hxy]
        · by_cases hyx : y < x
          · simp [strLe, hxy, hyx] at hab
          · have : x = y := le_antisymm (not_lt.mp hyx) (not_lt.mp hxy)
            subst this
            simp only [strLe, lt_irrefl, if_false] at hab
            by_cases hyz : x < z
            · simp [strLe, hyz]
            · by_cases hzy : z < x
              · simp [strLe, hyz, hzy] at hbc
              · have : x = z := le_antisymm (not_lt.mp hzy) (not_lt.mp hyz)
                subst this
                simp only [strLe, lt_irrefl, if_false] at hbc ⊢
                exact ih ys zs hab hbc

theorem strLe_antisymm (a b : GoStr) (hab : strLe a b = true) (hba : strLe b a = true) :
    a = b := by
  induction a generalizing b with
  | nil =>
    cases b with
    | nil => rfl
    | cons y ys => simp [strLe] at hba
  | cons x xs ih =>
    cases b with
    | nil => simp [strLe] at hab
    | cons y ys =>
      by_cases hxy : x < y
      · simp [strLe, hxy, asymm hxy] at hba
      · by_cases hyx : y < x
        · simp [strLe, hxy, hyx] at hab
        · have : x = y := le_antisymm (not_lt.mp hyx) (not_lt.mp hxy)
          subst this
          simp only [strLe, lt_irrefl, if_false] at hab hba
          rw [ih ys hab hba]

theorem insertPair_perm {α : Type} (x : GoStr × α) (l : List (GoStr × α)) :
    (insertPair x l).Perm (x :: l) := by
  induction l with
  | nil => simp [insertPair]
  | cons y ys ih =>
    rw [insertPair]
    split
    · exact List.Perm.refl _
    · exact (ih.cons y).trans (List.Perm.swap x y ys)

theorem sortPairs_perm {α : Type} (l : List (GoStr × α)) : (sortPairs l).Perm l := by
  induction l with
  | nil => simp [sortPairs]
  | cons x xs ih =>
    show (insertPair x (sortPairs xs)).Perm (x :: xs)
    exact (insertPair_perm x (sortPairs xs)).trans (ih.cons x)

theorem pairwise_insertPair {α : Type} (x : GoStr × α) (l : List (GoStr × α))
    (h : l.Pairwise (fun p q => strLe p.1 q.1 = true)) :
    (insertPair x l).Pairwise (fun p q => strLe p.1 q.1 = true) := by
  induction l with
  | nil => simp [insertPair]
  | cons y ys ih =>
    rw [insertPair]
    by_cases hxy : strLe x.1 y.1 = true
    · rw [if_pos hxy]
      refine List.Pairwise.cons ?_ h
      intro z hz
      rcases List.mem_cons.mp hz with rfl | hz'
      · exact hxy
      · exact strLe_trans _ _ _ hxy (List.rel_of_pairwise_cons h hz')
    · rw [if_neg hxy]
      have hyx : strLe y.1 x.1 = true := (strLe_total x.1 y.1).resolve_left hxy
      refine List.Pairwise.cons ?_ (ih (List.Pairwise.of_cons h))
      intro z hz
      have hz' := ((insertPair_perm x ys).mem_iff).mp hz
      rcases List.mem_cons.mp hz' with rfl | hz''
      · exact hyx
      · exact List.rel_of_pairwise_cons h hz''

theorem sortPairs_pairwise {α : Type} (l : List (GoStr × α)) :
    (sortPairs l).Pairwise (fun p q => strLe p.1 q.1 = true) := by
  induction l with
  | nil => simp [sortPairs]
  | cons x xs ih => exact pairwise_insertPair x (sortPairs xs) ih

theorem sortPairs_of_pairwise {α : Type} {l : List (GoStr × α)}
    (h : l.Pairwise (fun p q => strLe p.1 q.1 = true)) : sortPairs l = l := by
  induction l with
  | nil => rfl
  | cons x xs ih =>
    show insertPair x (sortPairs xs) = x :: xs
    rw [ih (List.Pairwise.of_cons h)]
    cases xs with
    | nil => rfl
    | cons y ys =>
      rw [insertPair,
        if_pos (List.rel_of_pairwise_cons h (List.mem_cons_self y ys))]

theorem sortPairs_idem {α : Type} (l : List (GoStr × α)) :
    sortPairs (sortPairs l) = sortPairs l :=
  sortPairs_of_pairwise (sortPairs_pairwise l)

theorem eq_of_perm_sorted_nodupkeys {α : Type} :
    ∀ {l₁ l₂ : List (GoStr × α)}, l₁.Perm l₂ →
      l₁.Pairwise (fun p q => strLe p.1 q.1 = true) →
      l₂.Pairwise (fun p q => strLe p.1 q.1 = true) →
      (l₁.map Prod.fst).Nodup → l₁ = l₂ := by
  intro l₁
  induction l₁ with
  | nil =>
    intro l₂ hp _ _ _
    exact (hp.symm.eq_nil).symm
  | cons a t₁ ih =>
    intro l₂ hp hs₁ hs₂ hnd
    rw [List.map_cons, List.nodup_cons] at hnd
    cases l₂ with
    | nil => exact absurd hp.eq_nil (by simp)
    | cons b t₂ =>
      by_cases hab : a = b
      · subst hab
        rw [ih hp.cons_inv (List.Pairwise.of_cons hs₁) (List.Pairwise.of_cons hs₂) hnd.2]
      · exfalso
        have ha : a ∈ b :: t₂ := hp.mem_iff.mp (List.mem_cons_self a t₁)
        have hb : b ∈ a :: t₁ := hp.symm.mem_iff.mp (List.mem_cons_self b t₂)
        have ha' : a ∈ t₂ := by
          rcases List.mem_cons.mp ha with h | h
          · exact absurd h hab
          · exact h
        have hb' : b ∈ t₁ := by
          rcases List.mem_cons.mp hb with h | h
          · exact absurd h.symm hab
          · exact h
        have h₁ : strLe a.1 b.1 = true := List.rel_of_pairwise_cons hs₁ hb'
        have h₂ : strLe b.1 a.1 = true := List.rel_of_pairwise_cons hs₂ ha'
        have hkey : a.1 = b.1 := strLe_antisymm _ _ h₁ h₂
        have hmem : a.1 ∈ t₁.map Prod.fst := by
          rw [hkey]
          exact List.mem_map_of_mem Prod.fst hb'
        exact hnd.1 hmem

theorem sortPairs_eq_of_pairsPerm {α : Type} {l₁ l₂ : List (GoStr × α)}
    (h : PairsPerm l₁ l₂) : sortPairs l₁ = sortPairs l₂ := by
  refine eq_of_perm_sorted_nodupkeys
    ((sortPairs_perm l₁).trans (h.1.trans (sortPairs_perm l₂).symm))
    (sortPairs_pairwise l₁) (sortPairs_pairwise l₂) ?_
  have : ((sortPairs l₁).map Prod.fst).Perm (l₁.map Prod.fst) :=
    (sortPairs_perm l₁).map Prod.fst
  exact this.nodup_iff.mpr h.2

/-! ### C3: the filesystem surface -/

theorem hasStrSuf_mono {s t u : GoStr} (hst : hasStrSuf s t = true)
    (hsu : hasStrSuf s u = true) (hlen : u.length ≤ t.length) :
    hasStrSuf t u = true := by
  rw [hasStrSuf, List.isPrefixOf_iff_prefix] at hst hsu ⊢
  exact List.prefix_of_prefix_length_le hsu hst (by simpa using hlen)

theorem hasStrSuf_excl {s t u : GoStr} (hst : hasStrSuf s t = true)
    (hlen : u.length ≤ t.length) (htu : hasStrSuf t u = false) :
    hasStrSuf s u = false := by
  cases hsu : hasStrSuf s u with
  | false => rfl
  | true => exact absurd (hasStrSuf_mono hst hsu hlen) (by simp [htu])

theorem virtualName_not_projected {n : GoStr}
    (h : (virtualJSONLName n).2 = false) : (virtualJSONLName n).1 = n := by
  rw [virtualJSONLName] at h ⊢
  split at h
  · simp_all
  · split at h
    · simp at h
    · split at h
      · simp at h
      · simp_all

theorem aget_aupd_self {α : Type} (m : List (GoStr × α)) (k : GoStr) (v : α) :
    aget (aupd m k v) k = some v := by
  induction m with
  | nil => simp [aupd, aget]
  | cons kv rest ih =>
    obtain ⟨k', v'⟩ := kv
    rw [aupd]
    by_cases h : k' = k
    · rw [if_pos h, aget, if_pos rfl]
    · rw [if_neg h, aget, if_neg h, ih]

theorem aget_aupd_ne {α : Type} (m : List (GoStr × α)) (k k' : GoStr) (v : α)
    (h : k' ≠ k) : aget (aupd m k' v) k = aget m k := by
  induction m with
  | nil => simp [aupd, aget, h]
  | cons kv rest ih =>
    obtain ⟨k₀, v₀⟩ := kv
    rw [aupd]
    by_cases h0 : k₀ = k'
    · subst h0
      rw [if_pos rfl, aget, aget, if_neg h, if_neg h]
    · rw [if_neg h0, aget, aget]
      by_cases h1 : k₀ = k
      · rw [if_pos h1, if_pos h1]
      · rw [if_neg h1, if_neg h1, ih]

theorem aget_mem {α : Type} {m : List (GoStr × α)} {k : GoStr} {v : α}
    (h : aget m k = some v) : (k, v) ∈ m := by
  induction m with
  | nil => simp [aget] at h
  | cons kv rest ih =>
    obtain ⟨k', v'⟩ := kv
    rw [aget] at h
    by_cases h0 : k' = k
    · rw [if_pos h0] at h
      subst h0
      obtain rfl : v' = v := Option.some.inj h
      exact List.mem_cons_self _ _
    · rw [if_neg h0] at h
      exact List.mem_cons_of_mem _ (ih h)

theorem resolve_nonprojected_stable (dir : GoStr) :
    ∀ (entries : List OsDirEntry) (out : List (GoStr × ResolvedEntry)) (k : GoStr)
      (ent : ResolvedEntry),
      aget out k = some ent → ent.projected = false →
      (∀ e ∈ entries, e.isDir = true → e.name ≠ k) →
      aget (resolveEntries dir entries out) k = some ent := by
  intro entries
  induction entries with
  | nil =>
    intro out k ent hget _ _
    exact hget
  | cons e rest ih =>
    intro out k ent hget hproj hdirs
    rw [resolveEntries]
    by_cases hd : e.isDir
    · rw [if_pos hd]
      refine ih _ k ent ?_ hproj (fun e' he' => hdirs e' (List.mem_cons_of_mem _ he'))
      rw [aget_aupd_ne _ _ _ _ (hdirs e (List.mem_cons_self _ _) hd)]
      exact hget
    · rw [if_neg hd]
      cases hex : aget out (virtualJSONLName e.name).1 with
      | some existing =>
        by_cases hx : existing.projected = true
        · rw [if_neg (by simp [skipExisting, hx])]
          have hne : (virtualJSONLName e.name).1 ≠ k := by
            intro hk
            rw [hk, hget] at hex
            obtain rfl := Option.some.inj hex
            rw [hproj] at hx
            exact Bool.noConfusion hx
          refine ih _ k ent ?_ hproj (fun e' he' => hdirs e' (List.mem_cons_of_mem _ he'))
          rw [aget_aupd_ne _ _ _ _ hne]
          exact hget
        · rw [if_pos (by simp [skipExisting, hx])]
          exact ih _ k ent hget hproj (fun e' he' => hdirs e' (List.mem_cons_of_mem _ he'))
      | none =>
        have hne : (virtualJSONLName e.name).1 ≠ k := by
          intro hk
          rw [hk, hget] at hex
          exact Option.noConfusion hex
        rw [if_neg (by simp [skipExisting])]
        refine ih _ k ent ?_ hproj (fun e' he' => hdirs e' (List.mem_cons_of_mem _ he'))
        rw [aget_aupd_ne _ _ _ _ hne]
        exact hget

theorem resolve_plain_wins (dir plainName : GoStr)
    (hv : virtualJSONLName plainName = (plainName, false)) :
    ∀ (pre post : List OsDirEntry) (out : List (GoStr × ResolvedEntry)),
      (∀ ent, aget out plainName = some ent → ent.projected = true) →
      (∀ e ∈ pre, e.name ≠ plainName) →
      (∀ e ∈ post, e.name ≠ plainName) →
      aget (resolveEntries dir (pre ++ ⟨plainName, false⟩ :: post) out) plainName =
        some ⟨plainName, joinPath dir plainName, false, false⟩ := by
  intro pre
  induction pre with
  | nil =>
    intro post out hP _ hpost
    rw [List.nil_append, resolveEntries]
    rw [if_neg (by simp : ¬ ((⟨plainName, false⟩ : OsDirEntry).isDir = true))]
    simp only [hv]
    have hstep : ∀ out' : List (GoStr × ResolvedEntry),
        aget out' plainName = some ⟨plainName, joinPath dir plainName, false, false⟩ →
        aget (resolveEntries dir post out') plainName =
          some ⟨plainName, joinPath dir plainName, false, false⟩ := by
      intro out' h'
      exact resolve_nonprojected_stable dir post out' plainName _ h' rfl
        (fun e he hd => hpost e he)
    cases hex : aget out plainName with
    | some existing =>
      rw [if_neg (by simp [skipExisting, hP existing hex])]
      exact hstep _ (aget_aupd_self _ _ _)
    | none =>
      rw [if_neg (by simp [skipExisting])]
      exact hstep _ (aget_aupd_self _ _ _)
  | cons e pre' ih =>
    intro post out hP hpre hpost
    rw [List.cons_append, resolveEntries]
    have hprename : e.name ≠ plainName := hpre e (List.mem_cons_self _ _)
    have hpre' : ∀ e' ∈ pre', e'.name ≠ plainName :=
      fun e' he' => hpre e' (List.mem_cons_of_mem _ he')
    have hkeepP : ∀ out' : List (GoStr × ResolvedEntry),
        (∀ ent, aget out' plainName = some ent → ent.projected = true) →
        ∀ ent, aget (aupd out' (virtualJSONLName e.name).1
          ⟨(virtualJSONLName e.name).1, joinPath dir e.name, false,
            (virtualJSONLName e.name).2⟩) plainName = some ent → ent.projected = true := by
      intro out' hP' ent hent
      by_cases hk : (virtualJSONLName e.name).1 = plainName
      · rw [hk] at hent
        rw [aget_aupd_self] at hent
        obtain rfl := Option.some.inj hent
        show (virtualJSONLName e.name).2 = true
        cases hp2 : (virtualJSONLName e.name).2 with
        | true => rfl
        | false =>
          exact absurd ((virtualName_not_projected hp2).symm.trans hk) hprename
      · rw [aget_aupd_ne _ _ _ _ hk] at hent
        exact hP' ent hent
    by_cases hd : e.isDir
    · rw [if_pos hd]
      refine ih post _ ?_ hpre' hpost
      intro ent hent
      rw [aget_aupd_ne _ _ _ _ hprename] at hent
      exact hP ent hent
    · rw [if_neg hd]
      cases hex : aget out (virtualJSONLName e.name).1 with
      | some existing =>
        by_cases hx : existing.projected = true
        · rw [if_neg (by simp [skipExisting, hx])]
          exact ih post _ (hkeepP out hP) hpre' hpost
        · rw [if_pos (by simp [skipExisting, hx])]
          exact ih post out hP hpre' hpost
      | none =>
        rw [if_neg (by simp [skipExisting])]
        exact ih post _ (hkeepP out hP) hpre' hpost

theorem resolve_untouched (dir : GoStr) :
    ∀ (entries : List OsDirEntry) (out : List (GoStr × ResolvedEntry)) (k : GoStr),
      (∀ e ∈ entries, (e.isDir = true → e.name ≠ k) ∧
        (e.isDir = false → (virtualJSONLName e.name).1 ≠ k)) →
      aget (resolveEntries dir entries out) k = aget out k := by
  intro entries
  induction entries with
  | nil =>
    intro out k _
    rfl
  | cons e rest ih =>
    intro out k h
    have hrest : ∀ e' ∈ rest, (e'.isDir = true → e'.name ≠ k) ∧
        (e'.isDir = false → (virtualJSONLName e'.name).1 ≠ k) :=
      fun e' he' => h e' (List.mem_cons_of_mem _ he')
    rw [resolveEntries]
    by_cases hd : e.isDir
    · rw [if_pos hd, ih _ k hrest,
        aget_aupd_ne _ _ _ _ ((h e (List.mem_cons_self _ _)).1 hd)]
    · rw [if_neg hd]
      have hne : (virtualJSONLName e.name).1 ≠ k :=
        (h e (List.mem_cons_self _ _)).2 (by simpa using hd)
      cases hex : aget out (virtualJSONLName e.name).1 with
      | some existing =>
        by_cases hx : existing.projected = true
        · rw [if_neg (by simp [skipExisting, hx]), ih _ k hrest,
            aget_aupd_ne _ _ _ _ hne]
        · rw [if_pos (by simp [skipExisting, hx]), ih _ k hrest]
      | none =>
        rw [if_neg (by simp [skipExisting]), ih _ k hrest, aget_aupd_ne _ _ _ _ hne]

theorem resolve_projected_alone (dir gzName v : GoStr)
    (hv : virtualJSONLName gzName = (v, true)) :
    ∀ (pre post : List OsDirEntry) (out : List (GoStr × ResolvedEntry)),
      aget out v = none →
      (∀ e ∈ pre, (e.isDir = true → e.name ≠ v) ∧
        (e.isDir = false → (virtualJSONLName e.name).1 ≠ v)) →
      (∀ e ∈ post, (e.isDir = true → e.name ≠ v) ∧
        (e.isDir = false → (virtualJSONLName e.name).1 ≠ v)) →
      aget (resolveEntries dir (pre ++ ⟨gzName, false⟩ :: post) out) v =
        some ⟨v, joinPath dir gzName, false, true⟩ := by
  intro pre
  induction pre with
  | nil =>
    intro post out hnone _ hpost
    rw [List.nil_append, resolveEntries]
    rw [if_neg (by simp : ¬ ((⟨gzName, false⟩ : OsDirEntry).isDir = true))]
    simp only [hv]
    rw [if_neg (by simp [skipExisting, hnone])]
    rw [resolve_untouched dir post _ v hpost]
    exact aget_aupd_self _ _ _
  | cons e pre' ih =>
    intro post out hnone hpre hpost
    have he := hpre e (List.mem_cons_self _ _)
    have hpre' : ∀ e' ∈ pre', (e'.isDir = true → e'.name ≠ v) ∧
        (e'.isDir = false → (virtualJSONLName e'.name).1 ≠ v) :=
      fun e' he' => hpre e' (List.mem_cons_of_mem _ he')
    rw [List.cons_append, resolveEntries]
    by_cases hd : e.isDir
    · rw [if_pos hd]
      refine ih post _ ?_ hpre' hpost
      rw [aget_aupd_ne _ _ _ _ (he.1 hd)]
      exact hnone
    · rw [if_neg hd]
      have hne : (virtualJSONLName e.name).1 ≠ v := he.2 (by simpa using hd)
      cases hex : aget out (virtualJSONLName e.name).1 with
      | some existing =>
        by_cases hx : existing.projected = true
        · rw [if_neg (by simp [skipExisting, hx])]
          refine ih post _ ?_ hpre' hpost
          rw [aget_aupd_ne _ _ _ _ hne]
          exact hnone
        · rw [if_pos (by simp [skipExisting, hx])]
          exact ih post out hnone hpre' hpost
      | none =>
        rw [if_neg (by simp [skipExisting])]
        refine ih post _ ?_ hpre' hpost
        rw [aget_aupd_ne _ _ _ _ hne]
        exact hnone

theorem mem_readdirVirtual {dir : GoStr} {entries : List OsDirEntry} {k : GoStr}
    {ent : ResolvedEntry} (h : aget (resolveEntries dir entries []) k = some ent) :
    (ent.name, ent.isDir) ∈ readdirVirtual dir entries := by
  rw [readdirVirtual]
  have hmem : (k, ent) ∈ sortPairs (resolveEntries dir entries []) :=
    ((sortPairs_perm (resolveEntries dir entries [])).mem_iff).mpr (aget_mem h)
  exact List.mem_map_of_mem (fun kv => (kv.2.name, kv.2.isDir)) hmem

/-- C3: at the filesystem surface (`fusefs.dirNode`), directory listings
present entries under `projector.VirtualJSONLName`: a `.jsonl.gz` or
`.jsonl.tar.gz` basename is shown with the compression suffix stripped to
`.jsonl` and every other name is unchanged (first conjunct); on a
collision between virtual names the non-compressed physical variant wins
in either order (second conjunct), while a lone compressed variant is
listed under its stripped name (third conjunct); and `dirNode.fileData`
reads a plain `.jsonl` entry through the Indexer
(`BuildOrLoad`/`FilterToWriter`), a projected compressed entry through
the Projector's gzip or tar.gz stream, and only an untouched
non-`.jsonl` file verbatim (fourth conjunct). -/
theorem fusefs_virtual_surface (parse : List Nat → Option Json)
    (ruleRes : Except GoStr (Option SelectedRule)) (cached : Option FileIndex)
    (raw decodedGz : List Nat) (tarEntries : List TarEntry) (mtimeUnix : Int)
    (now : Nat) (az : Authorizer) :
    (∀ name : GoStr,
      (hasStrSuf (toLowerStr name) (gs ".jsonl") = true →
        virtualJSONLName name = (name, false)) ∧
      (hasStrSuf (toLowerStr name) (gs ".jsonl.gz") = true →
        virtualJSONLName name = (trimSuffix name (gs ".gz"), true)) ∧
      (hasStrSuf (toLowerStr name) (gs ".jsonl.tar.gz") = true →
        virtualJSONLName name = (trimSuffix name (gs ".tar.gz"), true)) ∧
      (hasStrSuf (toLowerStr name) (gs ".jsonl") = false →
        hasStrSuf (toLowerStr name) (gs ".jsonl.gz") = false →
        hasStrSuf (toLowerStr name) (gs ".jsonl.tar.gz") = false →
        virtualJSONLName name = (name, false))) ∧
    (∀ (dir plainName : GoStr) (pre post : List OsDirEntry),
      virtualJSONLName plainName = (plainName, false) →
      (∀ e ∈ pre, e.name ≠ plainName) →
      (∀ e ∈ post, e.name ≠ plainName) →
      aget (resolveEntries dir (pre ++ ⟨plainName, false⟩ :: post) []) plainName =
        some ⟨plainName, joinPath dir plainName, false, false⟩ ∧
      (plainName, false) ∈ readdirVirtual dir (pre ++ ⟨plainName, false⟩ :: post)) ∧
    (∀ (dir gzName v : GoStr) (pre post : List OsDirEntry),
      virtualJSONLName gzName = (v, true) →
      (∀ e ∈ pre, (e.isDir = true → e.name ≠ v) ∧
        (e.isDir = false → (virtualJSONLName e.name).1 ≠ v)) →
      (∀ e ∈ post, (e.isDir = true → e.name ≠ v) ∧
        (e.isDir = false → (virtualJSONLName e.name).1 ≠ v)) →
      aget (resolveEntries dir (pre ++ ⟨gzName, false⟩ :: post) []) v =
        some ⟨v, joinPath dir gzName, false, true⟩ ∧
      (v, false) ∈ readdirVirtual dir (pre ++ ⟨gzName, false⟩ :: post)) ∧
    (∀ ent : ResolvedEntry,
      (ent.projected = false →
        hasStrSuf (toLowerStr ent.source) (gs ".jsonl") = false →
        fileData parse ent ruleRes cached raw decodedGz tarEntries mtimeUnix now az =
          Except.ok raw) ∧
      (hasStrSuf (toLowerStr ent.source) (gs ".jsonl") = true →
        fileData parse ent ruleRes cached raw decodedGz tarEntries mtimeUnix now az =
          (buildOrLoad parse ruleRes cached ent.source raw mtimeUnix now).map
            (fun fi => filterToWriter raw fi az)) ∧
      (ent.projected = true →
        hasStrSuf (toLowerStr ent.source) (gs ".jsonl.gz") = true →
        fileData parse ent ruleRes cached raw decodedGz tarEntries mtimeUnix now az =
          renderFilteredGz parse ruleRes az decodedGz) ∧
      (ent.projected = true →
        hasStrSuf (toLowerStr ent.source) (gs ".jsonl.tar.gz") = true →
        fileData parse ent ruleRes cached raw decodedGz tarEntries mtimeUnix now az =
          renderFilteredTarGz parse ruleRes az tarEntries)) := by
  refine ⟨?_, ?_, ?_, ?_⟩
  · intro name
    refine ⟨?_, ?_, ?_, ?_⟩
    · intro h
      simp [virtualJSONLName, h]
    · intro h
      have hjl : hasStrSuf (toLowerStr name) (gs ".jsonl") = false :=
        hasStrSuf_excl h (by decide) (by decide)
      simp [virtualJSONLName, h, hjl]
    · intro h
      have hjl : hasStrSuf (toLowerStr name) (gs ".jsonl") = false :=
        hasStrSuf_excl h (by decide) (by decide)
      have hgz : hasStrSuf (toLowerStr name) (gs ".jsonl.gz") = false :=
        hasStrSuf_excl h (by decide) (by decide)
      simp [virtualJSONLName, h, hjl, hgz]
    · intro h1 h2 h3
      simp [virtualJSONLName, h1, h2, h3]
  · intro dir plainName pre post hv hpre hpost
    have hbind := resolve_plain_wins dir plainName hv pre post []
      (fun ent hent => by simp [aget] at hent) hpre hpost
    exact ⟨hbind, mem_readdirVirtual hbind⟩
  · intro dir gzName v pre post hv hpre hpost
    have hbind := resolve_projected_alone dir gzName v hv pre post [] rfl hpre hpost
    exact ⟨hbind, mem_readdirVirtual hbind⟩
  · intro ent
    refine ⟨?_, ?_, ?_, ?_⟩
    · intro hp hs
      simp [fileData, hp, hs]
    · intro hs
      simp [fileData, renderFiltered, renderFilteredJSONL, hs]
    · intro hp hgz
      have hjl : hasStrSuf (toLowerStr ent.source) (gs ".jsonl") = false :=
        hasStrSuf_excl hgz (by decide) (by decide)
      simp [fileData, renderFiltered, hp, hgz, hjl]
    · intro hp htz
      have hjl : hasStrSuf (toLowerStr ent.source) (gs ".jsonl") = false :=
        hasStrSuf_excl htz (by decide) (by decide)
      have hgz : hasStrSuf (toLowerStr ent.source) (gs ".jsonl.gz") = false :=
        hasStrSuf_excl htz (by decide) (by decide)
      simp [fileData, renderFiltered, hp, htz, hjl, hgz]

/-- Witness for C3's surface theorem at a concrete directory: with the
compressed variant listed first by `os.ReadDir`, the non-compressed
`orders.jsonl` still wins the virtual-name collision and is what the
listing presents. -/
theorem fusefs_virtual_surface_witness :
    aget (resolveEntries (gs "/src")
        [⟨gs "orders.jsonl.gz", false⟩, ⟨gs "orders.jsonl", false⟩] [])
        (gs "orders.jsonl") =
      some ⟨gs "orders.jsonl", joinPath (gs "/src") (gs "orders.jsonl"),
        false, false⟩ ∧
    (gs "orders.jsonl", false) ∈
      readdirVirtual (gs "/src")
        [⟨gs "orders.jsonl.gz", false⟩, ⟨gs "orders.jsonl", false⟩] :=
  (fusefs_virtual_surface (fun _ => none) (Except.ok none) none [] [] [] 0 0
      denyAll).2.1 (gs "/src") (gs "orders.jsonl")
    [⟨gs "orders.jsonl.gz", false⟩] [] (by decide) (by decide) (by decide)

/-! ### C8: value stringification -/

theorem decDigitsRev_length_le (fuel m k : Nat) (hm : m < 10 ^ k) :
    (decDigitsRev fuel m).length ≤ k := by
  induction fuel generalizing m k with
  | zero => simp [decDigitsRev]
  | succ fuel ih =>
    rw [decDigitsRev]
    by_cases h0 : m = 0
    · simp [h0]
    · rw [if_neg h0]
      cases k with
      | zero =>
        simp only [pow_zero, Nat.lt_one_iff] at hm
        exact absurd hm h0
      | succ k =>
        have : m / 10 < 10 ^ k := by
          rw [Nat.div_lt_iff_lt_mul (by norm_num : 0 < 10)]
          calc m < 10 ^ (k + 1) := hm
            _ = 10 ^ k * 10 := by ring
        simpa using Nat.succ_le_succ (ih (m / 10) k this)

theorem decDigitsRev_ne_e (fuel m : Nat) : ∀ c ∈ decDigitsRev fuel m, c ≠ 'e' := by
  induction fuel generalizing m with
  | zero => simp [decDigitsRev]
  | succ fuel ih =>
    intro c hc
    rw [decDigitsRev] at hc
    by_cases h0 : m = 0
    · simp [h0] at hc
    · rw [if_neg h0] at hc
      rcases List.mem_cons.mp hc with h | h
      · subst h
        have hr : m % 10 < 10 := Nat.mod_lt _ (by norm_num)
        set r := m % 10 with hrdef
        interval_cases r <;> decide
      · exact ih (m / 10) c h

/-- Counterexample to C8: a JSON null resolved for a placeholder is not
treated as unresolved — it renders as the text `<nil>`, and the candidate
is produced with `<nil>` inside the object id instead of being dropped or
falling back. -/
theorem valueStringification_counterexample :
    evaluateLineDoc
      ⟨gs "any", gs "deny",
       ⟨⟨gs "*.jsonl"⟩, gs "any", gs "t", [], gs "deny",
        ⟨gs "json_pointer", gs "/a", gs "t:\x7bvalue\x7d", [], none, [],
         ⟨false, false⟩, []⟩⟩,
       gs "h"⟩
      (Json.obj [(gs "a", Json.null)]) =
      some [⟨gs "t", gs "<nil>", gs "read"⟩] ∧
    goSprintfV Json.null = gs "<nil>" ∧
    goSprintfV (Json.num 1000000) = gs "1e+06" := by
  refine ⟨by decide, by decide, by decide⟩

/-- C8 as amended: in the value stringification used by line evaluation,
integer-valued numeric scalars of magnitude below 10^6 render as their
plain decimal form with no scientific notation (integers of magnitude
10^6 and above render in Go's `%g` scientific form, e.g. `1e+06`);
strings render verbatim; booleans render `true`/`false`; a JSON null
renders as the literal text `<nil>` and is substituted into the template
like any other value, rather than dropping the candidate or triggering
fallback. -/
theorem valueStringification_amended :
    (∀ n : Int, n.natAbs < 1000000 →
      goSprintfV (Json.num n) = (if n < 0 then ['-'] else []) ++ decRepr n.natAbs ∧
      'e' ∉ goSprintfV (Json.num n)) ∧
    goSprintfV (Json.num 1000000) = gs "1e+06" ∧
    (∀ s : GoStr, goSprintfV (Json.str s) = s) ∧
    goSprintfV (Json.bool true) = gs "true" ∧
    goSprintfV (Json.bool false) = gs "false" ∧
    goSprintfV Json.null = gs "<nil>" ∧
    (∀ tmpl k : GoStr,
      substValues tmpl [(k, Json.null)] =
        replaceAll tmpl ('\x7b' :: k ++ ['\x7d']) (gs "<nil>")) := by
  have hplain : ∀ n : Int, n.natAbs < 1000000 →
      goSprintfV (Json.num n) = (if n < 0 then ['-'] else []) ++ decRepr n.natAbs := by
    intro n hn
    show goFormatInt n = _
    rw [goFormatInt]
    have hlen : (decRepr n.natAbs).length ≤ 6 := by
      rw [decRepr]
      by_cases h0 : n.natAbs = 0
      · simp [h0]
      · rw [if_neg h0]
        rw [List.length_reverse]
        exact decDigitsRev_length_le _ _ 6 (by norm_num at hn ⊢; omega)
    have : ¬ (n.natAbs ≠ 0 ∧ (decRepr n.natAbs).length - 1 ≥ 6) := by
      rintro ⟨-, h⟩
      omega
    rw [if_neg this]
  refine ⟨?_, by decide, fun s => rfl, rfl, rfl, rfl, fun tmpl k => rfl⟩
  intro n hn
  refine ⟨hplain n hn, ?_⟩
  rw [hplain n hn]
  intro hmem
  rcases List.mem_append.mp hmem with h | h
  · split at h <;> simp_all
  · rw [decRepr] at h
    by_cases h0 : n.natAbs = 0
    · rw [if_pos h0] at h
      simp at h
    · rw [if_neg h0] at h
      exact decDigitsRev_ne_e _ _ 'e' (List.mem_reverse.mp h) rfl

/-- Witness for the amended C8 at `n = 3`. -/
theorem valueStringification_amended_witness :
    goSprintfV (Json.num 3) = (if (3 : Int) < 0 then ['-'] else []) ++ decRepr (3 : Int).natAbs :=
  (valueStringification_amended.1 3 (by decide)).1

/-! ### C9: normalization and prefix stripping order -/

/-- The candidate construction in the order claim C9 states it: strip a
leading `objectType:` prefix from the rendered id first, then apply
normalization.  Stated from the spec's words, only to compare with the
implementation's `buildCandidate`. -/
def buildCandidateSpecOrder (doc : Json) (fallback : List (GoStr × List GoStr))
    (norm : NormalizeSpec) (objectType permission tmpl : GoStr)
    (values : List (GoStr × Json)) : Option CandidateKey :=
  let replaced := applyFallback doc fallback (substValues tmpl values)
  if replaced.contains '\x7b' ∨ replaced.contains '\x7d' then none
  else
    let pre := objectType ++ [':']
    let id0 := if hasStrPre replaced pre then replaced.drop pre.length else replaced
    let id1 := applyNormalize id0 norm
    if id1 = [] then none
    else some ⟨objectType, id1, if permission = [] then gs "read" else permission⟩

/-- Counterexample to C9: with `object_type = "Job"`, `lowercase`
normalization and a rendered id `Job:ABC`, the implementation normalizes
first (yielding `job:abc`, whose prefix `Job:` no longer matches), while
the claim's strip-then-normalize order would yield `abc`. -/
theorem stripNormalizeOrder_counterexample :
    evaluateLineDoc
      ⟨gs "any", gs "deny",
       ⟨⟨gs "*.jsonl"⟩, gs "any", gs "Job", [], gs "deny",
        ⟨gs "json_pointer", gs "/j", gs "Job:\x7bvalue\x7d", [], none, [],
         ⟨true, false⟩, []⟩⟩,
       gs "h"⟩
      (Json.obj [(gs "j", Json.str (gs "ABC"))]) =
      some [⟨gs "Job", gs "job:abc", gs "read"⟩] ∧
    buildCandidateSpecOrder (Json.obj [(gs "j", Json.str (gs "ABC"))]) []
      ⟨true, false⟩ (gs "Job") [] (gs "Job:\x7bvalue\x7d")
      [(gs "value", Json.str (gs "ABC"))] =
      some ⟨gs "Job", gs "abc", gs "read"⟩ ∧
    gs "job:abc" ≠ gs "abc" := by
  refine ⟨by decide, by decide, by decide⟩

/-- C9 as amended: for every rule and record whose template substitution
and fallback succeed, normalization (`lowercase`, `trim_slash`) is applied
to the rendered id first, and a leading `object_type:` prefix is then
stripped from the normalized id — in that order. -/
theorem normalizeThenStrip_amended (doc : Json) (fallback : List (GoStr × List GoStr))
    (norm : NormalizeSpec) (ot perm tmpl : GoStr) (values : List (GoStr × Json))
    (cand : CandidateKey)
    (h : buildCandidate doc fallback norm ot perm tmpl values = some cand) :
    cand.objectID =
      (if hasStrPre (applyNormalize (applyFallback doc fallback (substValues tmpl values)) norm)
          (ot ++ [':']) then
        (applyNormalize (applyFallback doc fallback (substValues tmpl values)) norm).drop
          (ot ++ [':']).length
      else applyNormalize (applyFallback doc fallback (substValues tmpl values)) norm) ∧
    cand.objectType = ot ∧
    cand.permission = (if perm = [] then gs "read" else perm) := by
  rw [buildCandidate] at h
  simp only at h
  split at h
  · exact absurd h (by simp)
  · split at h <;> split at h
    · exact absurd h (by simp)
    · obtain rfl : _ = cand := Option.some.inj h
      refine ⟨?_, rfl, rfl⟩
      split <;> simp_all
    · exact absurd h (by simp)
    · obtain rfl : _ = cand := Option.some.inj h
      refine ⟨?_, rfl, rfl⟩
      split <;> simp_all

/-- Witness for the amended C9 at the `Job:ABC` record. -/
theorem normalizeThenStrip_amended_witness :
    gs "job:abc" =
      (if hasStrPre
          (applyNormalize
            (applyFallback (Json.obj []) []
              (substValues (gs "Job:\x7bvalue\x7d") [(gs "value", Json.str (gs "ABC"))]))
            ⟨true, false⟩)
          ((gs "Job") ++ [':']) then
        (applyNormalize
          (applyFallback (Json.obj []) []
            (substValues (gs "Job:\x7bvalue\x7d") [(gs "value", Json.str (gs "ABC"))]))
          ⟨true, false⟩).drop ((gs "Job") ++ [':']).length
      else
        applyNormalize
          (applyFallback (Json.obj []) []
            (substValues (gs "Job:\x7bvalue\x7d") [(gs "value", Json.str (gs "ABC"))]))
          ⟨true, false⟩) := by
  have h : buildCandidate (Json.obj []) [] ⟨true, false⟩ (gs "Job") []
      (gs "Job:\x7bvalue\x7d") [(gs "value", Json.str (gs "ABC"))] =
      some ⟨gs "Job", gs "job:abc", gs "read"⟩ := by decide
  exact (normalizeThenStrip_amended (Json.obj []) [] ⟨true, false⟩ (gs "Job") []
    (gs "Job:\x7bvalue\x7d") [(gs "value", Json.str (gs "ABC"))]
    ⟨gs "Job", gs "job:abc", gs "read"⟩ h).1

/-! ### C6: the canonical rule-hash input -/

theorem goMapJ_eq_iff (m₁ m₂ : List (GoStr × GoStr)) :
    goMapJ m₁ = goMapJ m₂ ↔ sortPairs m₁ = sortPairs m₂ := by
  constructor
  · intro h
    rw [goMapJ, goMapJ] at h
    injection h with h'
    refine List.map_injective_iff.mpr ?_ h'
    rintro ⟨k₁, v₁⟩ ⟨k₂, v₂⟩ hpq
    simp only [Prod.mk.injEq, J.str.injEq] at hpq
    simp [hpq.1, hpq.2]
  · intro h
    rw [goMapJ, goMapJ, h]

theorem goSliceMapJ_eq_iff (m₁ m₂ : List (GoStr × List GoStr)) :
    goSliceMapJ m₁ = goSliceMapJ m₂ ↔ sortPairs m₁ = sortPairs m₂ := by
  constructor
  · intro h
    rw [goSliceMapJ, goSliceMapJ] at h
    injection h with h'
    refine List.map_injective_iff.mpr ?_ h'
    rintro ⟨k₁, v₁⟩ ⟨k₂, v₂⟩ hpq
    simp only [Prod.mk.injEq, J.arr.injEq] at hpq
    have : v₁ = v₂ :=
      List.map_injective_iff.mpr (fun a b hab => by injection hab) hpq.2
    simp [hpq.1, this]
  · intro h
    rw [goSliceMapJ, goSliceMapJ, h]

theorem normJ_eq_iff (n₁ n₂ : NormalizeSpec) : normJ n₁ = normJ n₂ ↔ n₁ = n₂ := by
  obtain ⟨l₁, t₁⟩ := n₁
  obtain ⟨l₂, t₂⟩ := n₂
  simp [normJ]

theorem faJ_eq_iff (fa₁ fa₂ : FromArraySpec) :
    faJ fa₁ = faJ fa₂ ↔ normFA fa₁ = normFA fa₂ := by
  obtain ⟨p₁, f₁, t₁⟩ := fa₁
  obtain ⟨p₂, f₂, t₂⟩ := fa₂
  simp [faJ, normFA, goMapJ_eq_iff]

theorem faOptJ_eq_iff (o₁ o₂ : Option FromArraySpec) :
    (o₁.map faJ).getD J.null = (o₂.map faJ).getD J.null ↔
      o₁.map normFA = o₂.map normFA := by
  cases o₁ with
  | none =>
    cases o₂ with
    | none => simp
    | some fa => simp [faJ]
  | some fa₁ =>
    cases o₂ with
    | none => simp [faJ]
    | some fa₂ => simp [faJ_eq_iff]

theorem emitJ_eq_iff (e₁ e₂ : EmitSpec) :
    emitJ e₁ = emitJ e₂ ↔ normEmit e₁ = normEmit e₂ := by
  obtain ⟨o₁, p₁, f₁, a₁, t₁⟩ := e₁
  obtain ⟨o₂, p₂, f₂, a₂, t₂⟩ := e₂
  simp only [emitJ, normEmit, EmitSpec.mk.injEq]
  simp [goMapJ_eq_iff, faOptJ_eq_iff]

theorem mapEmitJ_eq_iff :
    ∀ l₁ l₂ : List EmitSpec,
      l₁.map emitJ = l₂.map emitJ ↔ l₁.map normEmit = l₂.map normEmit := by
  intro l₁
  induction l₁ with
  | nil =>
    intro l₂
    cases l₂ <;> simp
  | cons e t ih =>
    intro l₂
    cases l₂ with
    | nil => simp
    | cons e' t' => simp [emitJ_eq_iff, ih]

theorem mapperJ_eq_iff (m₁ m₂ : MapperSpec) :
    mapperJ m₁ = mapperJ m₂ ↔ normMapper m₁ = normMapper m₂ := by
  obtain ⟨k₁, p₁, t₁, f₁, a₁, e₁, n₁, fb₁⟩ := m₁
  obtain ⟨k₂, p₂, t₂, f₂, a₂, e₂, n₂, fb₂⟩ := m₂
  simp only [mapperJ, normMapper, MapperSpec.mk.injEq]
  simp [goMapJ_eq_iff, goSliceMapJ_eq_iff, faOptJ_eq_iff, normJ_eq_iff, mapEmitJ_eq_iff]

theorem ruleJ_eq_iff (r₁ r₂ : MappingRule) :
    ruleJ r₁ = ruleJ r₂ ↔ normRule r₁ = normRule r₂ := by
  obtain ⟨⟨g₁⟩, d₁, o₁, p₁, k₁, m₁⟩ := r₁
  obtain ⟨⟨g₂⟩, d₂, o₂, p₂, k₂, m₂⟩ := r₂
  simp only [ruleJ, normRule, MappingRule.mk.injEq]
  simp [mapperJ_eq_iff]

theorem mapRuleJ_eq_iff :
    ∀ l₁ l₂ : List MappingRule,
      l₁.map ruleJ = l₂.map ruleJ ↔ normalizeRules l₁ = normalizeRules l₂ := by
  intro l₁
  induction l₁ with
  | nil =>
    intro l₂
    cases l₂ <;> simp [normalizeRules]
  | cons r t ih =>
    intro l₂
    cases l₂ with
    | nil => simp [normalizeRules]
    | cons r' t' =>
      have h := ih t'
      simp only [normalizeRules] at h ⊢
      simp [ruleJ_eq_iff, h]

theorem ruleJ_copy (r : MappingRule) :
    ruleJ
      { r with
        mapper :=
          { r.mapper with
            fields := sortPairs r.mapper.fields
            fallbackPaths := sortPairs r.mapper.fallbackPaths } } = ruleJ r := by
  rw [ruleJ, ruleJ]
  simp only [mapperJ, goMapJ, goSliceMapJ, sortPairs_idem]

theorem canonical_eq_arr (rules : List MappingRule) :
    canonicalRulesValue rules = J.arr (rules.map ruleJ) := by
  rw [canonicalRulesValue, canonicalRulesCopy, List.map_map]
  congr 1
  apply List.map_congr_left
  intro r _
  exact ruleJ_copy r

theorem normFA_eq_of_rel {fa₁ fa₂ : FromArraySpec} (h : FARel fa₁ fa₂) :
    normFA fa₁ = normFA fa₂ := by
  obtain ⟨p₁, f₁, t₁⟩ := fa₁
  obtain ⟨p₂, f₂, t₂⟩ := fa₂
  obtain ⟨hp, ht, hf⟩ := h
  simp only at hp ht hf
  simp [normFA, hp, ht, sortPairs_eq_of_pairsPerm hf]

theorem normEmit_eq_of_rel {e₁ e₂ : EmitSpec} (h : EmitRel e₁ e₂) :
    normEmit e₁ = normEmit e₂ := by
  obtain ⟨o₁, p₁, f₁, a₁, t₁⟩ := e₁
  obtain ⟨o₂, p₂, f₂, a₂, t₂⟩ := e₂
  obtain ⟨ho, hp, ht, hf, ha⟩ := h
  simp only at ho hp ht hf ha
  simp only [normEmit, EmitSpec.mk.injEq]
  refine ⟨ho, hp, sortPairs_eq_of_pairsPerm hf, ?_, ht⟩
  cases ha with
  | none => rfl
  | some hfa => simp [normFA_eq_of_rel hfa]

theorem normMapper_eq_of_rel {m₁ m₂ : MapperSpec} (h : MapperPermEq m₁ m₂) :
    normMapper m₁ = normMapper m₂ := by
  obtain ⟨k₁, p₁, t₁, f₁, a₁, e₁, n₁, fb₁⟩ := m₁
  obtain ⟨k₂, p₂, t₂, f₂, a₂, e₂, n₂, fb₂⟩ := m₂
  obtain ⟨hk, hp, ht, hn, hf, hfb, ha, he⟩ := h
  simp only at hk hp ht hn hf hfb ha he
  simp only [normMapper, MapperSpec.mk.injEq]
  refine ⟨hk, hp, ht, sortPairs_eq_of_pairsPerm hf, ?_, ?_,
    hn, sortPairs_eq_of_pairsPerm hfb⟩
  · cases ha with
    | none => rfl
    | some hfa => simp [normFA_eq_of_rel hfa]
  · induction he with
    | nil => rfl
    | cons hrel _ ih => simp [normEmit_eq_of_rel hrel, ih]

theorem rulesPermEq_normalize {rules₁ rules₂ : List MappingRule}
    (h : RulesPermEq rules₁ rules₂) : normalizeRules rules₁ = normalizeRules rules₂ := by
  induction h with
  | nil => rfl
  | @cons r₁ r₂ t₁ t₂ hrel htail ih =>
    obtain ⟨hm, hd, ho, hp, hk, hmap⟩ := hrel
    simp only [normalizeRules, List.map_cons] at ih ⊢
    have hr : normRule r₁ = normRule r₂ := by
      rw [normRule, normRule, hm, hd, ho, hp, hk, normMapper_eq_of_rel hmap]
    rw [hr, ih]

/-- C6: the rule-hash input computed while loading a mapping file — the
canonical JSON value whose deterministic serialization is digested with
SHA-1 — is unchanged by any reordering of the keys inside the string-keyed
maps of a rule's mapper (fields tables, fallback tables), and two rule
sets (inherited rules included, in order) produce the same hash input
exactly when their canonicalized rules coincide, so any change of rule
content or rule order changes the digest input.  By construction the
value depends only on the rules, never on the bytes of the indexed
file. -/
theorem ruleHash_canonicalization (inherit : Bool) (f₁ f₂ : MFile) :
    (RulesPermEq (collectRules inherit f₁) (collectRules inherit f₂) →
      loadRulesHashInput inherit f₁ = loadRulesHashInput inherit f₂) ∧
    (loadRulesHashInput inherit f₁ = loadRulesHashInput inherit f₂ ↔
      normalizeRules (collectRules inherit f₁) =
        normalizeRules (collectRules inherit f₂)) := by
  have hiff : ∀ r₁ r₂ : List MappingRule,
      canonicalRulesValue r₁ = canonicalRulesValue r₂ ↔
        normalizeRules r₁ = normalizeRules r₂ := by
    intro r₁ r₂
    rw [canonical_eq_arr, canonical_eq_arr]
    constructor
    · intro h
      injection h with h'
      exact (mapRuleJ_eq_iff _ _).mp h'
    · intro h
      rw [(mapRuleJ_eq_iff _ _).mpr h]
  refine ⟨?_, hiff _ _⟩
  intro h
  exact (hiff _ _).mpr (rulesPermEq_normalize h)

/-- A concrete rule whose mapper fields map lists `a` before `b`. -/
def c6RuleA : MappingRule :=
  { ruleMatch := ⟨gs "*.jsonl"⟩
    decision := gs "any"
    objectType := gs "job"
    permission := gs "read"
    missingResourceKey := gs "deny"
    mapper :=
      { kind := gs "multi_extract"
        pointer := []
        canonicalTemplate := []
        fields := [(gs "a", gs "/x"), (gs "b", gs "/y")]
        fromArray := none
        emit := []
        normalize := ⟨false, false⟩
        fallbackPaths := [(gs "k", [gs "/f"])] } }

/-- `c6RuleA` with its fields map keys written in the opposite order. -/
def c6RuleB : MappingRule :=
  { c6RuleA with
    mapper := { c6RuleA.mapper with fields := [(gs "b", gs "/y"), (gs "a", gs "/x")] } }

/-- Witness for C6: reordering the keys of a fields map leaves the hash
input unchanged. -/
theorem ruleHash_canonicalization_witness :
    loadRulesHashInput true (MFile.node [c6RuleA] none) =
      loadRulesHashInput true (MFile.node [c6RuleB] none) := by
  apply (ruleHash_canonicalization true (MFile.node [c6RuleA] none)
    (MFile.node [c6RuleB] none)).1
  refine List.Forall₂.cons ⟨rfl, rfl, rfl, rfl, rfl, ?_⟩ List.Forall₂.nil
  refine ⟨rfl, rfl, rfl, rfl, ?_, ?_, Option.Rel.none, List.Forall₂.nil⟩
  · exact ⟨List.Perm.swap _ _ _, by decide⟩
  · exact ⟨List.Perm.refl _, by decide⟩

end MetricFS
